import Mathlib

/-!
# Verification of the Graphviz editor's traversal / selection engine

This file gives a shallow embedding, in Lean, of the graph-exploration core of
the Graphviz-editor web application: the DOT scanner (`js/parser.js`), the
recursive downstream/upstream helpers, and the BFS-based traversal, selection
and view-composition engine of the `Graph` module, together with proofs of the
behavioural properties the design documentation states about them.

Conventions used throughout the embedding:
* JavaScript `Map` objects keyed by node-id strings are modelled as association
  lists (`VMap`); `Map.set` is modelled by prepending, `Map.get` by first-match
  lookup (`vlook`), which has identical observable semantics.
* JavaScript `Set` objects are modelled as duplicate-free lists built with
  `addSet`, which appends an element only when it is not already present,
  mirroring `Set.add`.
* The unbounded recursion / while-loops of the source are modelled with an
  explicit fuel parameter returning `Option`; separately we prove that a fuel
  in the order of the graph size always suffices.
-/

namespace GraphvizEditor

/-- An edge record `{source, target}` as produced by `Parser.parseDotSource`. -/
structure Edge where
  source : String
  target : String
  deriving DecidableEq, Repr

/-- Association-list model of a JS `Map` from node id to hop count. -/
abbrev VMap := List (String × Nat)

/-- `Map.get`: first-match lookup (later `Map.set` entries are prepended and
hence shadow earlier ones). -/
def vlook : VMap → String → Option Nat
  | [], _ => none
  | (a, b) :: r, k => if a = k then some b else vlook r k

/-- `Map.set k v` modelled by prepending the new binding. -/
def mset (m : VMap) (k : String) (v : Nat) : VMap := (k, v) :: m

/-- `Set.add`: append the element unless already present. -/
def addSet (s : List String) (x : String) : List String :=
  if x ∈ s then s else s ++ [x]

/-- The adjacency index built by `getGraphConnections`:
`outgoing` maps a source id to its list of distinct targets, `incoming` maps a
target id to its list of distinct sources. -/
structure Connections where
  outgoing : List (String × List String)
  incoming : List (String × List String)
  deriving Repr

/-- `connections.outgoing[k] || []`: lookup defaulting to the empty list. -/
def getL : List (String × List String) → String → List String
  | [], _ => []
  | (a, b) :: r, k => if a = k then b else getL r k

/-- `direction === 'downstream' ? connections.outgoing[id] || [] :
connections.incoming[id] || []`. -/
def neighborsOf (direction : String) (conn : Connections) (currentId : String) :
    List String :=
  if direction = "downstream" then getL conn.outgoing currentId
  else getL conn.incoming currentId

/-- The edge key built inside `traverseConnections`:
``direction === 'downstream' ? `${currentId}->${neighborId}` :
`${neighborId}->${currentId}` ``. -/
def edgeKeyFor (direction : String) (currentId neighborId : String) : String :=
  if direction = "downstream" then currentId ++ "->" ++ neighborId
  else neighborId ++ "->" ++ currentId

/-- The mutable state threaded through `traverseConnections`: the BFS queue of
`{id, distance}` records, the `visited` map, and the three result sets
(`nodesToHighlight`, `edgesToHighlight`, `directEdges`). -/
structure TravState where
  queue : List (String × Nat)
  visited : VMap
  nodes : List String
  edges : List String
  direct : List String
  deriving Repr

/-- One iteration of the `for (const neighborId of neighbors)` body of
`traverseConnections`: record the edge key, record it as direct when expanding
the start node, and enqueue the neighbor when unvisited or found via a
strictly shorter path. -/
def processNeighbor (direction startNodeId currentId : String) (distance : Nat)
    (st : TravState) (neighborId : String) : TravState :=
  let edgeId := edgeKeyFor direction currentId neighborId
  let st1 : TravState := { st with edges := addSet st.edges edgeId }
  let st2 : TravState :=
    if currentId = startNodeId then { st1 with direct := addSet st1.direct edgeId }
    else st1
  match vlook st2.visited neighborId with
  | none =>
      { st2 with
        nodes := addSet st2.nodes neighborId
        visited := mset st2.visited neighborId (distance + 1)
        queue := st2.queue ++ [(neighborId, distance + 1)] }
  | some dv =>
      if distance + 1 < dv then
        { st2 with
          nodes := addSet st2.nodes neighborId
          visited := mset st2.visited neighborId (distance + 1)
          queue := st2.queue ++ [(neighborId, distance + 1)] }
      else st2

/-- The `while (queue.length > 0)` loop of `traverseConnections`, with an
explicit fuel bounding the number of iterations. A dequeued node whose
distance has reached `maxHops` is skipped; otherwise each neighbor in the
traversal direction is processed by `processNeighbor`. -/
def travLoop (direction startNodeId : String) (maxHops : Nat)
    (conn : Connections) : Nat → TravState → Option TravState
  | 0, _ => none
  | fuel + 1, st =>
      match st.queue with
      | [] => some st
      | (currentId, distance) :: rest =>
          if maxHops ≤ distance then
            travLoop direction startNodeId maxHops conn fuel { st with queue := rest }
          else
            travLoop direction startNodeId maxHops conn fuel
              ((neighborsOf direction conn currentId).foldl
                (processNeighbor direction startNodeId currentId distance)
                { st with queue := rest })

/-- `traverseConnections(direction, startNodeId, maxHops, connections,
nodesToHighlight, edgesToHighlight, directEdges)`: BFS from the start node,
seeded with the start node visited at distance 0, mutating the three result
sets passed by the caller. -/
def traverseConnections (direction startNodeId : String) (maxHops : Nat)
    (conn : Connections) (nodes edges direct : List String) (fuel : Nat) :
    Option TravState :=
  travLoop direction startNodeId maxHops conn fuel
    { queue := [(startNodeId, 0)]
      visited := [(startNodeId, 0)]
      nodes := nodes
      edges := edges
      direct := direct }

/-- Ghost-instrumented variant of `processNeighbor` that additionally records,
in a log, every node id pushed onto the BFS queue. The `TravState` component
evolves exactly as in `processNeighbor` (proved below). -/
def processNeighborG (direction startNodeId currentId : String) (distance : Nat)
    (stl : TravState × List String) (neighborId : String) :
    TravState × List String :=
  let edgeId := edgeKeyFor direction currentId neighborId
  let st1 : TravState := { stl.1 with edges := addSet stl.1.edges edgeId }
  let st2 : TravState :=
    if currentId = startNodeId then { st1 with direct := addSet st1.direct edgeId }
    else st1
  match vlook st2.visited neighborId with
  | none =>
      ({ st2 with
          nodes := addSet st2.nodes neighborId
          visited := mset st2.visited neighborId (distance + 1)
          queue := st2.queue ++ [(neighborId, distance + 1)] },
        stl.2 ++ [neighborId])
  | some dv =>
      if distance + 1 < dv then
        ({ st2 with
            nodes := addSet st2.nodes neighborId
            visited := mset st2.visited neighborId (distance + 1)
            queue := st2.queue ++ [(neighborId, distance + 1)] },
          stl.2 ++ [neighborId])
      else (st2, stl.2)

/-- Ghost-instrumented variant of `travLoop`. -/
def travLoopG (direction startNodeId : String) (maxHops : Nat)
    (conn : Connections) : Nat → TravState × List String →
    Option (TravState × List String)
  | 0, _ => none
  | fuel + 1, stl =>
      match stl.1.queue with
      | [] => some stl
      | (currentId, distance) :: rest =>
          if maxHops ≤ distance then
            travLoopG direction startNodeId maxHops conn fuel
              ({ stl.1 with queue := rest }, stl.2)
          else
            travLoopG direction startNodeId maxHops conn fuel
              ((neighborsOf direction conn currentId).foldl
                (processNeighborG direction startNodeId currentId distance)
                ({ stl.1 with queue := rest }, stl.2))

/-- Ghost-instrumented variant of `traverseConnections`, starting with an
empty push log (the initial seeding of the start node is accounted
separately). -/
def traverseConnectionsG (direction startNodeId : String) (maxHops : Nat)
    (conn : Connections) (nodes edges direct : List String) (fuel : Nat) :
    Option (TravState × List String) :=
  travLoopG direction startNodeId maxHops conn fuel
    ({ queue := [(startNodeId, 0)]
       visited := [(startNodeId, 0)]
       nodes := nodes
       edges := edges
       direct := direct }, [])

/-- All node ids occurring in the adjacency lists consulted by a traversal in
the given direction; every node the BFS can ever enqueue lies in this list. -/
def allNbrs (direction : String) (conn : Connections) : List String :=
  if direction = "downstream" then (conn.outgoing.map Prod.snd).flatten
  else (conn.incoming.map Prod.snd).flatten

/-- Number of ids from `allNbrs` not yet present in the visited map; together
with the queue length this is the decreasing measure of the BFS loop. -/
def unvisCount (direction : String) (conn : Connections) (v : VMap) : Nat :=
  (((allNbrs direction conn).dedup).filter
    (fun n => (vlook v n).isNone)).length

/-- `hasWalk dir conn start k t` holds when the graph contains a directed walk
of exactly `k` hops from `start` to `t`, following the adjacency lists in the
given traversal direction. This is the specification-side notion of "number
of hops from the selection's start node". -/
def hasWalk (direction : String) (conn : Connections) (startNodeId : String) :
    Nat → String → Prop
  | 0, t => t = startNodeId
  | k + 1, t => ∃ u, hasWalk direction conn startNodeId k u ∧
      t ∈ neighborsOf direction conn u

/-- JS object property assignment `m[k] = v`, modelled by a shadowing prepend
(all reads go through the first-match lookup `getL`). -/
def updL (m : List (String × List String)) (k : String) (v : List String) :
    List (String × List String) := (k, v) :: m

/-- Processing of one edge inside `getGraphConnections`: edges with a falsy
(empty) endpoint or with `source === target` (self-loops) are skipped;
otherwise the target is appended to `outgoing[source]` and the source to
`incoming[target]`, each only if not already included. -/
def addEdgeConn (conn : Connections) (e : Edge) : Connections :=
  if e.source = "" ∨ e.target = "" ∨ e.source = e.target then conn
  else
    { outgoing := updL conn.outgoing e.source
        (addSet (getL conn.outgoing e.source) e.target)
      incoming := updL conn.incoming e.target
        (addSet (getL conn.incoming e.target) e.source) }

/-- `getGraphConnections()`: initialize empty connection arrays for every
rendered node id, then fold in the parsed edge list followed by the edges
recovered from the rendered output (the DOM fallback pass), with identical
skip and deduplication rules. -/
def getGraphConnections (nodeIds : List String) (parsedEdges domEdges : List Edge) :
    Connections :=
  let init := nodeIds.foldl
    (fun c id => { outgoing := updL c.outgoing id []
                   incoming := updL c.incoming id [] })
    (⟨[], []⟩ : Connections)
  (parsedEdges ++ domEdges).foldl addEdgeConn init

/-- `Parser.findDownstreamNodes(serviceId, resultSet, hopsMap, maxHops, edges)`
from `js/parser.js`: recursive label-correcting exploration of outgoing edges.
The explicit fuel bounds the recursion depth; every concrete use in this file
supplies ample fuel. -/
def findDownstreamNodes :
    Nat → String → List String → VMap → Nat → List Edge → List String × VMap
  | 0, _, resultSet, hopsMap, _, _ => (resultSet, hopsMap)
  | fuel + 1, serviceId, resultSet, hopsMap, maxHops, edges =>
      let currentHops := (vlook hopsMap serviceId).getD 0
      if maxHops ≤ currentHops then (resultSet, hopsMap)
      else
        (edges.filter (fun e => decide (e.source = serviceId))).foldl
          (fun (acc : List String × VMap) e =>
            let targetHops := currentHops + 1
            let proceed : Bool :=
              match vlook acc.2 e.target with
              | none => true
              | some d => decide (targetHops < d)
            bif proceed then
              let rs := addSet acc.1 e.target
              let hm := mset acc.2 e.target targetHops
              if targetHops < maxHops then
                findDownstreamNodes fuel e.target rs hm maxHops edges
              else (rs, hm)
            else acc)
          (resultSet, hopsMap)

/-- Models the JS expression `downstreamHops.get(x) || Infinity` from the
edge-highlighting pass of the first `updateView`: `undefined` and the falsy
number `0` are both replaced by `Infinity`. `none` stands for Infinity. -/
def jsHopsOrInfinity (hm : VMap) (x : String) : Option Nat :=
  match vlook hm x with
  | none => none
  | some d => if d = 0 then none else some d

/-- `<` on numbers extended with Infinity (`none`). -/
def infLt : Option Nat → Option Nat → Bool
  | some a, some b => decide (a < b)
  | some _, none => true
  | none, _ => false

/-- The downstream-mode edge decision of the first `updateView`
(`shouldHighlight` for `viewMode === 'downstream'`): both endpoints must be
highlighted, and then the edge lights up when
`sourceHops < targetHops || sourceId === selectedNodeId`, where the hop
values are read via `downstreamHops.get(..) || Infinity`. -/
def edgeHighlightDownstream (selectedNodeId : String)
    (downstreamNodeIds : List String) (downstreamHops : VMap)
    (sourceId targetId : String) : Bool :=
  let sourceHighlighted : Bool :=
    decide (sourceId = selectedNodeId) || decide (sourceId ∈ downstreamNodeIds)
  let targetHighlighted : Bool :=
    decide (targetId = selectedNodeId) || decide (targetId ∈ downstreamNodeIds)
  if sourceHighlighted && targetHighlighted then
    infLt (jsHopsOrInfinity downstreamHops sourceId)
        (jsHopsOrInfinity downstreamHops targetId)
      || decide (sourceId = selectedNodeId)
  else false

/-- A `{id, attrs}` record from `Parser.parseDotSource`'s node array. -/
structure DotNode where
  id : String
  attrs : String
  deriving DecidableEq, Repr

/-- One attempted match of the node regex `/"([^"]+)"\s*\[([^\]]+)\]/` at the
head of the character list: a quoted nonempty identifier, optional whitespace,
then a nonempty bracketed attribute block. Returns the two capture groups and
the remaining characters after the match. -/
def matchNodeAt : List Char → Option (String × String × List Char)
  | '"' :: cs =>
      let idChars := cs.takeWhile (fun c => c ≠ '"')
      if idChars.isEmpty then none
      else
        match cs.dropWhile (fun c => c ≠ '"') with
        | '"' :: rest2 =>
            match rest2.dropWhile Char.isWhitespace with
            | '[' :: rest4 =>
                let attrChars := rest4.takeWhile (fun c => c ≠ ']')
                if attrChars.isEmpty then none
                else
                  match rest4.dropWhile (fun c => c ≠ ']') with
                  | ']' :: rest6 =>
                      some (String.mk idChars, String.mk attrChars, rest6)
                  | _ => none
            | _ => none
        | _ => none
  | _ => none

/-- One attempted match of the edge regex `/"([^"]+)"\s*->\s*"([^"]+)"/` at
the head of the character list. -/
def matchEdgeAt : List Char → Option (Edge × List Char)
  | '"' :: cs =>
      let idChars := cs.takeWhile (fun c => c ≠ '"')
      if idChars.isEmpty then none
      else
        match cs.dropWhile (fun c => c ≠ '"') with
        | '"' :: rest2 =>
            match rest2.dropWhile Char.isWhitespace with
            | '-' :: '>' :: rest4 =>
                match rest4.dropWhile Char.isWhitespace with
                | '"' :: cs2 =>
                    let idChars2 := cs2.takeWhile (fun c => c ≠ '"')
                    if idChars2.isEmpty then none
                    else
                      match cs2.dropWhile (fun c => c ≠ '"') with
                      | '"' :: rest6 =>
                          some (⟨String.mk idChars, String.mk idChars2⟩, rest6)
                      | _ => none
                | _ => none
            | _ => none
        | _ => none
  | _ => none

/-- The `while ((match = nodeRegex.exec(dotSource)) !== null)` scan: find the
leftmost match, record it, and continue after the matched text; on failure at
the current position, retry from the next character. Fuel bounds the scan
(each step consumes at least one character, so `length + 1` always suffices). -/
def scanNodesAux : Nat → List Char → List DotNode
  | 0, _ => []
  | fuel + 1, l =>
      match l with
      | [] => []
      | c :: cs =>
          match matchNodeAt (c :: cs) with
          | some (id, attrs, rest) => ⟨id, attrs⟩ :: scanNodesAux fuel rest
          | none => scanNodesAux fuel cs

/-- The analogous scan for the edge regex. -/
def scanEdgesAux : Nat → List Char → List Edge
  | 0, _ => []
  | fuel + 1, l =>
      match l with
      | [] => []
      | c :: cs =>
          match matchEdgeAt (c :: cs) with
          | some (e, rest) => e :: scanEdgesAux fuel rest
          | none => scanEdgesAux fuel cs

/-- `Parser.parseDotSource(dotSource)`: the two independent global-regex scans
collecting node entries and edge entries. -/
def parseDotSource (dotSource : String) : List DotNode × List Edge :=
  (scanNodesAux (dotSource.length + 1) dotSource.data,
   scanEdgesAux (dotSource.length + 1) dotSource.data)

/-- A selection record `{nodeId, viewMode, maxHops}` created by
`handleNodeClick`. `maxHops` is a JS number-or-undefined: `none` models
`undefined`/`NaN`. -/
structure Selection where
  nodeId : String
  viewMode : String
  maxHops : Option Int
  deriving DecidableEq, Repr

/-- The selection-list update of `handleNodeClick`: with a modifier key
(`additive`), append unless a selection with the same nodeId already exists;
without, replace the whole list by the singleton. -/
def handleSelectionUpdate (currentSelection : List Selection) (sel : Selection)
    (additive : Bool) : List Selection :=
  if additive then
    if currentSelection.any (fun s => decide (s.nodeId = sel.nodeId)) then
      currentSelection
    else currentSelection ++ [sel]
  else [sel]

/-- The hop-limit clamp at the top of `updateView`:
`maxHops = (maxHops === undefined || isNaN(parseInt(maxHops)) ||
parseInt(maxHops) <= 0) ? 5 : parseInt(maxHops)`. `none` models
`undefined`/`NaN`. -/
def normalizeMaxHops : Option Int → Int
  | none => 5
  | some z => if z ≤ 0 then 5 else z

/-- The hop-limit determination of `handleNodeClick`: default 5; the
"unlimited" checkbox forces the sentinel 100; otherwise the slider value is
parsed, falling back to 5 when `NaN` or non-positive. The outer `Option`
models slider absence, the inner one a `NaN` parse. -/
def computeClickMaxHops (unlimitedChecked : Bool)
    (sliderValue : Option (Option Int)) : Int :=
  if unlimitedChecked then 100
  else
    match sliderValue with
    | none => 5
    | some none => 5
    | some (some z) => if z ≤ 0 then 5 else z

/-- The rendered output as the view-updating code observes it: the node ids
read from `.node` elements, the `source/target` pairs read from the `title`
of `.edge` elements, and the node ids / edge pairs sitting inside legend
clusters (which `highlightLegendElements` force-highlights). -/
structure Dom where
  nodeIds : List String
  edgePairs : List (String × String)
  legendNodeIds : List String
  legendEdgePairs : List (String × String)
  deriving Repr

/-- The CSS-class state the view code mutates: which node ids carry the
`highlighted` / `faded` / `selected` classes and which edge pairs carry the
`highlighted` / `faded` / `selected-arrow` classes. Lists are read as sets. -/
structure ViewState where
  nodeHL : List String
  nodeFaded : List String
  nodeSel : List String
  edgeHL : List (String × String)
  edgeFaded : List (String × String)
  edgeArrow : List (String × String)
  deriving DecidableEq, Repr

/-- `resetHighlights()`: every class cleared. -/
def resetState : ViewState := ⟨[], [], [], [], [], []⟩

/-- The `"source->target"` key under which an edge element is filed in
`edgeElementMap`. -/
def pairKey (p : String × String) : String := p.1 ++ "->" ++ p.2

/-- Optionally run one `traverseConnections` call, threading the three result
sets; used for the downstream and upstream calls of `updateView` (mode
`bidirectional` performs both). -/
def runDir (cond : Bool) (direction startId : String) (maxHops : Nat)
    (conn : Connections) (sets : List String × List String × List String)
    (fuel : Nat) : Option (List String × List String × List String) :=
  bif cond then
    (traverseConnections direction startId maxHops conn
        sets.1 sets.2.1 sets.2.2 fuel).map
      (fun st => (st.nodes, st.edges, st.direct))
  else some sets

/-- The highlight-set computation of the second `updateView`: clamp the hop
limit, rebuild the adjacency via `getGraphConnections`, then either expand
direct neighbors (mode `single`) or run the BFS in the required
direction(s). Returns `(nodesToHighlight, edgesToHighlight, directEdges)`. -/
def computeHighlightSets (dom : Dom) (parsedEdges : List Edge) (sel : Selection)
    (fuel : Nat) : Option (List String × List String × List String) :=
  let maxHops := (normalizeMaxHops sel.maxHops).toNat
  let conn := getGraphConnections dom.nodeIds parsedEdges
    (dom.edgePairs.map (fun p => ⟨p.1, p.2⟩))
  let n0 := [sel.nodeId]
  if sel.viewMode = "single" then
    let s1 := (getL conn.outgoing sel.nodeId).foldl
      (fun (acc : List String × List String × List String) targetId =>
        let edgeId := sel.nodeId ++ "->" ++ targetId
        (addSet acc.1 targetId, addSet acc.2.1 edgeId, addSet acc.2.2 edgeId))
      (n0, [], [])
    let s2 := (getL conn.incoming sel.nodeId).foldl
      (fun (acc : List String × List String × List String) sourceId =>
        let edgeId := sourceId ++ "->" ++ sel.nodeId
        (addSet acc.1 sourceId, addSet acc.2.1 edgeId, addSet acc.2.2 edgeId))
      s1
    some s2
  else
    (runDir (decide (sel.viewMode = "downstream") ||
        decide (sel.viewMode = "bidirectional"))
      "downstream" sel.nodeId maxHops conn (n0, [], []) fuel).bind
      (fun s1 =>
        runDir (decide (sel.viewMode = "upstream") ||
            decide (sel.viewMode = "bidirectional"))
          "upstream" sel.nodeId maxHops conn s1 fuel)

/-- The class-assignment passes of the second `updateView`, applied to a
previous class state: a node gains `highlighted` when reached now or already
highlighted (never removed), gains `faded` exactly when neither, and keeps
`selected` accumulatively; an edge pair present in the rendered output gains
`highlighted` when its key is in `edgesToHighlight` (previously highlighted
edges are left highlighted), and the fade pass fades every rendered edge that
ends up without the `highlighted` class. -/
def applyClasses (dom : Dom) (sel : Selection)
    (sets : List String × List String × List String) (prev : ViewState) :
    ViewState :=
  let nodesToHighlight := sets.1
  let edgesToHighlight := sets.2.1
  let directEdges := sets.2.2
  { nodeHL := prev.nodeHL ++ dom.nodeIds.filter
      (fun x => decide (x ∈ nodesToHighlight) && !decide (x ∈ prev.nodeHL))
    nodeFaded := prev.nodeFaded.filter (fun x => !decide (x ∈ dom.nodeIds)) ++
      dom.nodeIds.filter
        (fun x => !decide (x ∈ nodesToHighlight) && !decide (x ∈ prev.nodeHL))
    nodeSel := prev.nodeSel ++ dom.nodeIds.filter
      (fun x => decide (x = sel.nodeId) && !decide (x ∈ prev.nodeSel))
    edgeHL := prev.edgeHL ++ dom.edgePairs.filter
      (fun p => decide (pairKey p ∈ edgesToHighlight) && !decide (p ∈ prev.edgeHL))
    edgeFaded := prev.edgeFaded.filter
        (fun p => !decide (p ∈ dom.edgePairs) ||
          (!decide (pairKey p ∈ edgesToHighlight) && decide (p ∈ prev.edgeHL))) ++
      dom.edgePairs.filter
        (fun p => !decide (pairKey p ∈ edgesToHighlight) &&
          !decide (p ∈ prev.edgeHL))
    edgeArrow := prev.edgeArrow.filter
        (fun p => !decide (p ∈ dom.edgePairs) ||
          !decide (pairKey p ∈ edgesToHighlight) ||
          decide (pairKey p ∈ directEdges)) ++
      dom.edgePairs.filter
        (fun p => decide (pairKey p ∈ edgesToHighlight) &&
          decide (pairKey p ∈ directEdges) && !decide (p ∈ prev.edgeArrow)) }

/-- The second `updateView(selectedNodeId, viewMode, maxHops)` as a transformer
of the class state: a falsy node id or mode `all` returns immediately, leaving
classes untouched; otherwise the computed highlight sets are applied on top of
the existing classes. -/
def viewUpdate (dom : Dom) (parsedEdges : List Edge) (sel : Selection)
    (fuel : Nat) (prev : ViewState) : Option ViewState :=
  if sel.nodeId = "" ∨ sel.viewMode = "all" then some prev
  else
    (computeHighlightSets dom parsedEdges sel fuel).map
      (fun sets => applyClasses dom sel sets prev)

/-- `highlightLegendElements()`: nodes and edges inside legend clusters are
force-highlighted and un-faded. -/
def applyLegend (dom : Dom) (st : ViewState) : ViewState :=
  { st with
    nodeHL := st.nodeHL ++ dom.legendNodeIds.filter (fun x => !decide (x ∈ st.nodeHL))
    nodeFaded := st.nodeFaded.filter (fun x => !decide (x ∈ dom.legendNodeIds))
    edgeHL := st.edgeHL ++ dom.legendEdgePairs.filter (fun p => !decide (p ∈ st.edgeHL))
    edgeFaded := st.edgeFaded.filter (fun p => !decide (p ∈ dom.legendEdgePairs)) }

/-- `applySelections()`: reset every class, replay `updateView` for each
active selection in order, then force-highlight legend elements. -/
def applySelectionsFn (dom : Dom) (parsedEdges : List Edge)
    (sels : List Selection) (fuel : Nat) : Option ViewState :=
  (sels.foldlM (fun st sel => viewUpdate dom parsedEdges sel fuel st)
      resetState).map (applyLegend dom)

/-- The adjacency index is consistent when the outgoing and incoming maps
describe the same edge relation. `getGraphConnections` always produces a
consistent index (proved below). -/
def Consistent (c : Connections) : Prop :=
  ∀ s t, t ∈ getL c.outgoing s ↔ s ∈ getL c.incoming t

/-- Loop invariant of the BFS `travLoop`: the queue distances are
non-decreasing, every queued node is visited at its queued distance, every
visited distance is within one hop of every queued distance and never exceeds
the hop bound, every visited distance is realized by a walk of that exact
length, every visited node below the bound is still queued or already fully
expanded, the start node is pinned at distance 0, and every recorded edge key
either was present initially or names an actual adjacency pair in
source→target order. -/
structure TravInv (direction startNodeId : String) (maxHops : Nat)
    (conn : Connections) (initEdges : List String) (st : TravState) : Prop where
  sorted : st.queue.Pairwise (fun a b => a.2 ≤ b.2)
  qvis : ∀ p ∈ st.queue, vlook st.visited p.1 = some p.2
  vband : ∀ n d, vlook st.visited n = some d → ∀ p ∈ st.queue, d ≤ p.2 + 1
  vmax : ∀ n d, vlook st.visited n = some d → d ≤ maxHops
  vwalk : ∀ n d, vlook st.visited n = some d →
    hasWalk direction conn startNodeId d n
  vexp : ∀ n d, vlook st.visited n = some d → d < maxHops →
    ((n, d) ∈ st.queue ∨
      ∀ m ∈ neighborsOf direction conn n,
        ∃ e, vlook st.visited m = some e ∧ e ≤ d + 1)
  vstart : vlook st.visited startNodeId = some 0
  ekeys : ∀ k ∈ st.edges, k ∈ initEdges ∨ ∃ s t, k = s ++ "->" ++ t ∧
    (t ∈ getL conn.outgoing s ∨ s ∈ getL conn.incoming t)

/-- Intermediate invariant holding while the neighbors of the dequeued node
`u` (at distance `D`) are being processed. -/
structure MidInv (direction startNodeId : String) (maxHops : Nat)
    (conn : Connections) (initEdges : List String) (u : String) (D : Nat)
    (st : TravState) : Prop where
  sorted : st.queue.Pairwise (fun a b => a.2 ≤ b.2)
  qband : ∀ p ∈ st.queue, D ≤ p.2 ∧ p.2 ≤ D + 1
  qvis : ∀ p ∈ st.queue, vlook st.visited p.1 = some p.2
  vub : ∀ n d, vlook st.visited n = some d → d ≤ D + 1
  vmax : ∀ n d, vlook st.visited n = some d → d ≤ maxHops
  vwalk : ∀ n d, vlook st.visited n = some d →
    hasWalk direction conn startNodeId d n
  vstart : vlook st.visited startNodeId = some 0
  ekeys : ∀ k ∈ st.edges, k ∈ initEdges ∨ ∃ s t, k = s ++ "->" ++ t ∧
    (t ∈ getL conn.outgoing s ∨ s ∈ getL conn.incoming t)
  vcur : vlook st.visited u = some D
  vexp2 : ∀ n d, vlook st.visited n = some d → d < maxHops →
    ((n, d) ∈ st.queue ∨ n = u ∨
      ∀ m ∈ neighborsOf direction conn n,
        ∃ e, vlook st.visited m = some e ∧ e ≤ d + 1)

/-- Invariant tying the ghost push log to the BFS state: the log never
repeats a node, and every logged node is visited at a positive distance and
occurs in some adjacency list. -/
def LogInv (direction : String) (conn : Connections) (st : TravState)
    (log : List String) : Prop :=
  log.Nodup ∧ ∀ n ∈ log,
    (∃ d, vlook st.visited n = some d ∧ 1 ≤ d) ∧ n ∈ allNbrs direction conn

theorem mem_addSet {s : List String} {x y : String} :
    y ∈ addSet s x ↔ y ∈ s ∨ y = x := by
  unfold addSet
  split
  · rename_i hx
    constructor
    · exact Or.inl
    · rintro (h | rfl)
      · exact h
      · exact hx
  · simp [List.mem_append]

theorem self_mem_addSet (s : List String) (x : String) : x ∈ addSet s x :=
  mem_addSet.mpr (Or.inr rfl)

theorem mem_addSet_of_mem {s : List String} {y : String} (x : String)
    (h : y ∈ s) : y ∈ addSet s x :=
  mem_addSet.mpr (Or.inl h)

theorem vlook_mset_self (m : VMap) (k : String) (v : Nat) :
    vlook (mset m k v) k = some v := by
  simp [mset, vlook]

theorem vlook_mset_ne (m : VMap) (k : String) (v : Nat) {k' : String}
    (h : k ≠ k') : vlook (mset m k v) k' = vlook m k' := by
  simp [mset, vlook, h]

theorem vlook_mset_cases {m : VMap} {k : String} {v : Nat} {k' : String}
    {d : Nat} (h : vlook (mset m k v) k' = some d) :
    (k' = k ∧ d = v) ∨ (k' ≠ k ∧ vlook m k' = some d) := by
  by_cases hk : k = k'
  · subst hk
    rw [vlook_mset_self] at h
    exact Or.inl ⟨rfl, (Option.some.inj h).symm⟩
  · rw [vlook_mset_ne _ _ _ hk] at h
    exact Or.inr ⟨fun hh => hk hh.symm, h⟩

theorem getL_updL (m : List (String × List String)) (k : String)
    (v : List String) (k' : String) :
    getL (updL m k v) k' = if k = k' then v else getL m k' := rfl

theorem getL_subset_flatten {m : List (String × List String)} {s t : String}
    (h : t ∈ getL m s) : t ∈ (m.map Prod.snd).flatten := by
  induction m with
  | nil => simp [getL] at h
  | cons a r ih =>
      obtain ⟨k, v⟩ := a
      simp only [getL] at h
      by_cases hk : k = s
      · rw [if_pos hk] at h
        simp only [List.map_cons, List.flatten_cons, List.mem_append]
        exact Or.inl h
      · rw [if_neg hk] at h
        simp only [List.map_cons, List.flatten_cons, List.mem_append]
        exact Or.inr (ih h)

theorem nbrs_subset_allNbrs {direction : String} {conn : Connections}
    {u n : String} (h : n ∈ neighborsOf direction conn u) :
    n ∈ allNbrs direction conn := by
  unfold neighborsOf at h
  unfold allNbrs
  split <;> rename_i hd
  · rw [if_pos hd] at h
    exact getL_subset_flatten h
  · rw [if_neg hd] at h
    exact getL_subset_flatten h

theorem consistent_addEdgeConn {c : Connections} (hc : Consistent c)
    (e : Edge) : Consistent (addEdgeConn c e) := by
  unfold addEdgeConn
  split
  · exact hc
  · rename_i hskip
    intro s t
    simp only [getL_updL]
    by_cases hs : e.source = s <;> by_cases ht : e.target = t
    · subst hs; subst ht
      simp [self_mem_addSet]
    · subst hs
      rw [if_pos rfl, if_neg ht]
      rw [mem_addSet]
      constructor
      · rintro (h | rfl)
        · exact (hc _ _).mp h
        · exact absurd rfl ht
      · intro h
        exact Or.inl ((hc _ _).mpr h)
    · subst ht
      rw [if_neg hs, if_pos rfl]
      rw [mem_addSet]
      constructor
      · intro h
        exact Or.inl ((hc _ _).mp h)
      · rintro (h | rfl)
        · exact (hc _ _).mpr h
        · exact absurd rfl hs
    · rw [if_neg hs, if_neg ht]
      exact hc s t

theorem consistent_foldl_addEdgeConn {c : Connections} (hc : Consistent c) :
    ∀ es : List Edge, Consistent (es.foldl addEdgeConn c) := by
  intro es
  induction es generalizing c with
  | nil => exact hc
  | cons e es ih => exact ih (consistent_addEdgeConn hc e)

theorem consistent_init_nodes (nodeIds : List String) :
    Consistent (nodeIds.foldl
      (fun c id => { outgoing := updL c.outgoing id []
                     incoming := updL c.incoming id [] })
      (⟨[], []⟩ : Connections)) := by
  have key : ∀ (l : List String) (c : Connections),
      (∀ s, getL c.outgoing s = [] ∧ getL c.incoming s = []) →
      ∀ s, getL ((l.foldl
        (fun c id => { outgoing := updL c.outgoing id []
                       incoming := updL c.incoming id [] }) c)).outgoing s = [] ∧
        getL ((l.foldl
        (fun c id => { outgoing := updL c.outgoing id []
                       incoming := updL c.incoming id [] }) c)).incoming s = [] := by
    intro l
    induction l with
    | nil => intro c hc s; exact hc s
    | cons a l ih =>
        intro c hc s
        refine ih _ ?_ s
        intro s'
        constructor
        · rw [getL_updL]
          split
          · rfl
          · exact (hc s').1
        · rw [getL_updL]
          split
          · rfl
          · exact (hc s').2
  intro s t
  have h := key nodeIds ⟨[], []⟩ (fun _ => ⟨rfl, rfl⟩)
  rw [(h s).1, (h t).2]
  simp

theorem consistent_getGraphConnections (nodeIds : List String)
    (parsedEdges domEdges : List Edge) :
    Consistent (getGraphConnections nodeIds parsedEdges domEdges) := by
  unfold getGraphConnections
  exact consistent_foldl_addEdgeConn (consistent_init_nodes nodeIds) _

theorem edgeKey_fact {direction : String} {conn : Connections} {u n : String}
    (hn : n ∈ neighborsOf direction conn u) :
    ∃ s t, edgeKeyFor direction u n = s ++ "->" ++ t ∧
      (t ∈ getL conn.outgoing s ∨ s ∈ getL conn.incoming t) := by
  unfold neighborsOf at hn
  unfold edgeKeyFor
  by_cases hd : direction = "downstream"
  · rw [if_pos hd] at hn ⊢
    exact ⟨u, n, rfl, Or.inl hn⟩
  · rw [if_neg hd] at hn ⊢
    exact ⟨n, u, rfl, Or.inr hn⟩

theorem filter_length_succ_le {l : List String} (hl : l.Nodup) {n : String}
    (hn : n ∈ l) {p q : String → Bool} (hpn : p n = true) (hqn : q n = false)
    (hpq : ∀ x ∈ l, x ≠ n → q x = p x) :
    (l.filter q).length + 1 ≤ (l.filter p).length := by
  induction l with
  | nil => cases hn
  | cons a l ih =>
      rcases List.mem_cons.mp hn with rfl | hn'
      · have hnl : n ∉ l := (List.nodup_cons.mp hl).1
        have hfeq : l.filter q = l.filter p := by
          apply List.filter_congr
          intro x hx
          exact hpq x (List.mem_cons_of_mem _ hx) (fun hxn => hnl (hxn ▸ hx))
        simp only [List.filter_cons, hpn, hqn, if_true, if_false, Bool.false_eq_true,
          List.length_cons, hfeq]
        omega
      · have hal : a ≠ n := by
          rintro rfl
          exact (List.nodup_cons.mp hl).1 hn'
        have hqa : q a = p a := hpq a (List.mem_cons_self a l) hal
        have ihl := ih (List.nodup_cons.mp hl).2 hn'
          (fun x hx hxn => hpq x (List.mem_cons_of_mem _ hx) hxn)
        cases hpa : p a with
        | false =>
            have hqa' : q a = false := by rw [hqa, hpa]
            simp only [List.filter_cons, hpa, hqa', if_false, Bool.false_eq_true]
            exact ihl
        | true =>
            have hqa' : q a = true := by rw [hqa, hpa]
            simp only [List.filter_cons, hpa, hqa', if_true, List.length_cons]
            omega

theorem hasWalk_zero {direction : String} {conn : Connections}
    {startNodeId t : String} :
    hasWalk direction conn startNodeId 0 t ↔ t = startNodeId := Iff.rfl

theorem hasWalk_succ {direction : String} {conn : Connections}
    {startNodeId t : String} {k : Nat} :
    hasWalk direction conn startNodeId (k + 1) t ↔
      ∃ u, hasWalk direction conn startNodeId k u ∧
        t ∈ neighborsOf direction conn u := Iff.rfl

theorem midStep_noPush {direction startNodeId : String} {maxHops : Nat}
    {conn : Connections} {initEdges : List String} {u : String} {D : Nat}
    {st : TravState} {n : String}
    (hmid : MidInv direction startNodeId maxHops conn initEdges u D st)
    (hn : n ∈ neighborsOf direction conn u) (dd : List String) :
    MidInv direction startNodeId maxHops conn initEdges u D
      { st with edges := addSet st.edges (edgeKeyFor direction u n)
                direct := dd } := by
  obtain ⟨s1, s2, s3, s4, s5, s6, s7, s8, s9, s10⟩ := hmid
  refine ⟨s1, s2, s3, s4, s5, s6, s7, ?_, s9, s10⟩
  intro k hk
  rcases mem_addSet.mp hk with hk' | rfl
  · exact s8 k hk'
  · exact Or.inr (edgeKey_fact hn)

theorem midStep_push {direction startNodeId : String} {maxHops : Nat}
    {conn : Connections} {initEdges : List String} {u : String} {D : Nat}
    {st : TravState} {log : List String} {n : String}
    (hmid : MidInv direction startNodeId maxHops conn initEdges u D st)
    (hlog : LogInv direction conn st log)
    (hD : D < maxHops) (hn : n ∈ neighborsOf direction conn u)
    (hv : vlook st.visited n = none) (dd : List String) (st' : TravState)
    (hst' : st' = ⟨st.queue ++ [(n, D + 1)], mset st.visited n (D + 1),
      addSet st.nodes n, addSet st.edges (edgeKeyFor direction u n), dd⟩) :
    MidInv direction startNodeId maxHops conn initEdges u D st' ∧
    LogInv direction conn st' (log ++ [n]) ∧
    vlook st'.visited n = some (D + 1) ∧
    (∀ m e, vlook st.visited m = some e → vlook st'.visited m = some e) ∧
    (st'.queue.length + unvisCount direction conn st'.visited ≤
      st.queue.length + unvisCount direction conn st.visited) := by
  subst hst'
  have hne : ∀ {m : String} {e : Nat}, vlook st.visited m = some e → n ≠ m := by
    intro m e h hmn
    rw [← hmn, hv] at h
    cases h
  have hstab : ∀ m e, vlook st.visited m = some e →
      vlook (mset st.visited n (D + 1)) m = some e := by
    intro m e h
    rw [vlook_mset_ne _ _ _ (hne h)]
    exact h
  refine ⟨?_, ?_, vlook_mset_self _ _ _, hstab, ?_⟩
  · refine ⟨?_, ?_, ?_, ?_, ?_, ?_, ?_, ?_, ?_, ?_⟩
    · rw [List.pairwise_append]
      refine ⟨hmid.sorted, List.pairwise_singleton _ _, ?_⟩
      intro a ha b hb
      rcases List.mem_singleton.mp hb with rfl
      exact (hmid.qband a ha).2
    · intro p hp
      rcases List.mem_append.mp hp with hp' | hp'
      · exact hmid.qband p hp'
      · rcases List.mem_singleton.mp hp' with rfl
        exact ⟨Nat.le_succ D, Nat.le_refl _⟩
    · intro p hp
      rcases List.mem_append.mp hp with hp' | hp'
      · exact hstab _ _ (hmid.qvis p hp')
      · rcases List.mem_singleton.mp hp' with rfl
        exact vlook_mset_self _ _ _
    · intro m d h
      rcases vlook_mset_cases h with ⟨rfl, rfl⟩ | ⟨hmn, h'⟩
      · exact Nat.le_refl _
      · exact hmid.vub m d h'
    · intro m d h
      rcases vlook_mset_cases h with ⟨rfl, rfl⟩ | ⟨hmn, h'⟩
      · omega
      · exact hmid.vmax m d h'
    · intro m d h
      rcases vlook_mset_cases h with ⟨rfl, rfl⟩ | ⟨hmn, h'⟩
      · exact hasWalk_succ.mpr ⟨u, hmid.vwalk u D hmid.vcur, hn⟩
      · exact hmid.vwalk m d h'
    · exact hstab _ _ hmid.vstart
    · intro k hk
      rcases mem_addSet.mp hk with hk' | rfl
      · exact hmid.ekeys k hk'
      · exact Or.inr (edgeKey_fact hn)
    · exact hstab _ _ hmid.vcur
    · intro m d h hdm
      rcases vlook_mset_cases h with ⟨rfl, rfl⟩ | ⟨hmn, h'⟩
      · exact Or.inl (List.mem_append_right _ (List.mem_singleton.mpr rfl))
      · rcases hmid.vexp2 m d h' hdm with hq | hu | hexp
        · exact Or.inl (List.mem_append_left _ hq)
        · exact Or.inr (Or.inl hu)
        · refine Or.inr (Or.inr ?_)
          intro m' hm'
          obtain ⟨e, he, hle⟩ := hexp m' hm'
          exact ⟨e, hstab _ _ he, hle⟩
  · have hnlog : n ∉ log := by
      intro hmem
      obtain ⟨⟨d, hd, _⟩, _⟩ := hlog.2 n hmem
      rw [hv] at hd
      cases hd
    constructor
    · rw [List.nodup_append]
      refine ⟨hlog.1, List.nodup_singleton _, ?_⟩
      intro a ha hb
      rcases List.mem_singleton.mp hb with rfl
      exact hnlog ha
    · intro m hm
      rcases List.mem_append.mp hm with hm' | hm'
      · obtain ⟨⟨d, hd, h1⟩, h2⟩ := hlog.2 m hm'
        exact ⟨⟨d, hstab _ _ hd, h1⟩, h2⟩
      · rcases List.mem_singleton.mp hm' with rfl
        exact ⟨⟨D + 1, vlook_mset_self _ _ _, by omega⟩, nbrs_subset_allNbrs hn⟩
  · have hunv : unvisCount direction conn (mset st.visited n (D + 1)) + 1 ≤
        unvisCount direction conn st.visited := by
      unfold unvisCount
      refine filter_length_succ_le (List.nodup_dedup _)
        (List.mem_dedup.mpr (nbrs_subset_allNbrs hn)) ?_ ?_ ?_
      · rw [hv]
        rfl
      · rw [vlook_mset_self]
        rfl
      · intro x hx hxn
        rw [vlook_mset_ne _ _ _ (fun h => hxn h.symm)]
    have hlen : (st.queue ++ [(n, D + 1)]).length = st.queue.length + 1 := by
      simp
    simp only [hlen]
    omega

theorem processNeighborG_eq (direction startNodeId u : String) (D : Nat)
    (st : TravState) (log : List String) (n : String) :
    processNeighborG direction startNodeId u D (st, log) n =
      (match vlook st.visited n with
      | none =>
          (⟨st.queue ++ [(n, D + 1)], mset st.visited n (D + 1),
            addSet st.nodes n, addSet st.edges (edgeKeyFor direction u n),
            if u = startNodeId then
              addSet st.direct (edgeKeyFor direction u n)
            else st.direct⟩,
          log ++ [n])
      | some dv =>
          if D + 1 < dv then
            (⟨st.queue ++ [(n, D + 1)], mset st.visited n (D + 1),
              addSet st.nodes n, addSet st.edges (edgeKeyFor direction u n),
              if u = startNodeId then
                addSet st.direct (edgeKeyFor direction u n)
              else st.direct⟩,
            log ++ [n])
          else
            (⟨st.queue, st.visited, st.nodes,
              addSet st.edges (edgeKeyFor direction u n),
              if u = startNodeId then
                addSet st.direct (edgeKeyFor direction u n)
              else st.direct⟩,
            log)) := by
  unfold processNeighborG
  by_cases hus : u = startNodeId <;>
    cases hv : vlook st.visited n <;>
      simp [hus, hv]

theorem processNeighbor_eq (direction startNodeId u : String) (D : Nat)
    (st : TravState) (n : String) :
    processNeighbor direction startNodeId u D st n =
      (match vlook st.visited n with
      | none =>
          ⟨st.queue ++ [(n, D + 1)], mset st.visited n (D + 1),
            addSet st.nodes n, addSet st.edges (edgeKeyFor direction u n),
            if u = startNodeId then
              addSet st.direct (edgeKeyFor direction u n)
            else st.direct⟩
      | some dv =>
          if D + 1 < dv then
            ⟨st.queue ++ [(n, D + 1)], mset st.visited n (D + 1),
              addSet st.nodes n, addSet st.edges (edgeKeyFor direction u n),
              if u = startNodeId then
                addSet st.direct (edgeKeyFor direction u n)
              else st.direct⟩
          else
            ⟨st.queue, st.visited, st.nodes,
              addSet st.edges (edgeKeyFor direction u n),
              if u = startNodeId then
                addSet st.direct (edgeKeyFor direction u n)
              else st.direct⟩) := by
  unfold processNeighbor
  by_cases hus : u = startNodeId <;>
    cases hv : vlook st.visited n <;>
      simp [hus, hv]

theorem processNeighborG_fst (direction startNodeId u : String) (D : Nat)
    (st : TravState) (log : List String) (n : String) :
    (processNeighborG direction startNodeId u D (st, log) n).1 =
      processNeighbor direction startNodeId u D st n := by
  rw [processNeighborG_eq, processNeighbor_eq]
  cases hv : vlook st.visited n with
  | none => rfl
  | some dv =>
      by_cases hlt : D + 1 < dv <;> simp [hlt]

theorem processNeighborG_step {direction startNodeId : String} {maxHops : Nat}
    {conn : Connections} {initEdges : List String} {u : String} {D : Nat}
    {st : TravState} {log : List String} {n : String}
    (hmid : MidInv direction startNodeId maxHops conn initEdges u D st)
    (hlog : LogInv direction conn st log)
    (hD : D < maxHops) (hn : n ∈ neighborsOf direction conn u)
    (st' : TravState) (log' : List String)
    (heq : processNeighborG direction startNodeId u D (st, log) n = (st', log')) :
    MidInv direction startNodeId maxHops conn initEdges u D st' ∧
    LogInv direction conn st' log' ∧
    (∃ e, vlook st'.visited n = some e ∧ e ≤ D + 1) ∧
    (∀ m e, vlook st.visited m = some e → vlook st'.visited m = some e) ∧
    (st'.queue.length + unvisCount direction conn st'.visited ≤
      st.queue.length + unvisCount direction conn st.visited) := by
  rw [processNeighborG_eq] at heq
  cases hv : vlook st.visited n with
  | none =>
      rw [hv] at heq
      cases heq
      obtain ⟨h1, h2, h3, h4, h5⟩ := midStep_push hmid hlog hD hn hv _ _ rfl
      exact ⟨h1, h2, ⟨D + 1, h3, Nat.le_refl _⟩, h4, h5⟩
  | some dv =>
      have hdvle : dv ≤ D + 1 := hmid.vub n dv hv
      have hnotlt : ¬ (D + 1 < dv) := by omega
      rw [hv] at heq
      simp only [if_neg hnotlt] at heq
      cases heq
      exact ⟨midStep_noPush hmid hn _, hlog, ⟨dv, hv, hdvle⟩,
        fun m e h => h, Nat.le_refl _⟩

theorem foldG_step {direction startNodeId : String} {maxHops : Nat}
    {conn : Connections} {initEdges : List String} {u : String} {D : Nat}
    (hD : D < maxHops) :
    ∀ (N : List String) (st : TravState) (log : List String),
    MidInv direction startNodeId maxHops conn initEdges u D st →
    LogInv direction conn st log →
    (∀ n ∈ N, n ∈ neighborsOf direction conn u) →
    ∀ st' log',
    N.foldl (processNeighborG direction startNodeId u D) (st, log) = (st', log') →
    MidInv direction startNodeId maxHops conn initEdges u D st' ∧
    LogInv direction conn st' log' ∧
    (∀ n ∈ N, ∃ e, vlook st'.visited n = some e ∧ e ≤ D + 1) ∧
    (∀ m e, vlook st.visited m = some e → vlook st'.visited m = some e) ∧
    (st'.queue.length + unvisCount direction conn st'.visited ≤
      st.queue.length + unvisCount direction conn st.visited) := by
  intro N
  induction N with
  | nil =>
      intro st log hmid hlog hN st' log' heq
      cases heq
      refine ⟨hmid, hlog, ?_, fun m e h => h, Nat.le_refl _⟩
      intro n hn
      cases hn
  | cons n N ih =>
      intro st log hmid hlog hN st' log' heq
      have hstep := processNeighborG_step hmid hlog hD (hN n (List.mem_cons_self n N))
        (processNeighborG direction startNodeId u D (st, log) n).1
        (processNeighborG direction startNodeId u D (st, log) n).2 rfl
      obtain ⟨h1, h2, h3, h4, h5⟩ := hstep
      rw [List.foldl_cons] at heq
      have hrest := ih _ _ h1 h2 (fun m hm => hN m (List.mem_cons_of_mem n hm))
        st' log' heq
      obtain ⟨g1, g2, g3, g4, g5⟩ := hrest
      refine ⟨g1, g2, ?_, ?_, ?_⟩
      · intro m hm
        rcases List.mem_cons.mp hm with rfl | hm'
        · obtain ⟨e, he, hle⟩ := h3
          exact ⟨e, g4 _ _ he, hle⟩
        · exact g3 m hm'
      · intro m e h
        exact g4 _ _ (h4 _ _ h)
      · omega

theorem pop_mid {direction startNodeId : String} {maxHops : Nat}
    {conn : Connections} {initEdges : List String} {u : String} {D : Nat}
    {st : TravState} {r : List (String × Nat)}
    (hinv : TravInv direction startNodeId maxHops conn initEdges st)
    (hq : st.queue = (u, D) :: r) :
    MidInv direction startNodeId maxHops conn initEdges u D
      { st with queue := r } := by
  have hmemu : (u, D) ∈ st.queue := by rw [hq]; exact List.mem_cons_self _ _
  have hcur : vlook st.visited u = some D := hinv.qvis (u, D) hmemu
  have hsort := hinv.sorted
  rw [hq] at hsort
  have hpair := List.pairwise_cons.mp hsort
  refine ⟨hpair.2, ?_, ?_, ?_, hinv.vmax, hinv.vwalk, hinv.vstart, hinv.ekeys,
    hcur, ?_⟩
  · intro p hp
    have hpmem : p ∈ st.queue := by rw [hq]; exact List.mem_cons_of_mem _ hp
    refine ⟨hpair.1 p hp, ?_⟩
    exact hinv.vband p.1 p.2 (hinv.qvis p hpmem) (u, D) hmemu
  · intro p hp
    exact hinv.qvis p (by rw [hq]; exact List.mem_cons_of_mem _ hp)
  · intro m d h
    exact hinv.vband m d h (u, D) hmemu
  · intro m d h hdm
    rcases hinv.vexp m d h hdm with hmem | hexp
    · rw [hq] at hmem
      rcases List.mem_cons.mp hmem with heq' | hmem'
      · exact Or.inr (Or.inl (congrArg Prod.fst heq'))
      · exact Or.inl hmem'
    · exact Or.inr (Or.inr hexp)

theorem mid_close {direction startNodeId : String} {maxHops : Nat}
    {conn : Connections} {initEdges : List String} {u : String} {D : Nat}
    {st : TravState}
    (hmid : MidInv direction startNodeId maxHops conn initEdges u D st)
    (hexp : ∀ m ∈ neighborsOf direction conn u,
      ∃ e, vlook st.visited m = some e ∧ e ≤ D + 1) :
    TravInv direction startNodeId maxHops conn initEdges st := by
  refine ⟨hmid.sorted, hmid.qvis, ?_, hmid.vmax, hmid.vwalk, ?_, hmid.vstart,
    hmid.ekeys⟩
  · intro n d h p hp
    have h1 := hmid.vub n d h
    have h2 := (hmid.qband p hp).1
    omega
  · intro n d h hdm
    rcases hmid.vexp2 n d h hdm with hmem | heq' | hexp'
    · exact Or.inl hmem
    · subst heq'
      have hd : d = D := by
        have := hmid.vcur
        rw [h] at this
        exact Option.some.inj this
      subst hd
      exact Or.inr hexp
    · exact Or.inr hexp'

theorem skip_inv {direction startNodeId : String} {maxHops : Nat}
    {conn : Connections} {initEdges : List String} {u : String} {D : Nat}
    {st : TravState} {r : List (String × Nat)}
    (hinv : TravInv direction startNodeId maxHops conn initEdges st)
    (hq : st.queue = (u, D) :: r) (hD : maxHops ≤ D) :
    TravInv direction startNodeId maxHops conn initEdges
      { st with queue := r } := by
  have hsort := hinv.sorted
  rw [hq] at hsort
  have hpair := List.pairwise_cons.mp hsort
  refine ⟨hpair.2, ?_, ?_, hinv.vmax, hinv.vwalk, ?_, hinv.vstart, hinv.ekeys⟩
  · intro p hp
    exact hinv.qvis p (by rw [hq]; exact List.mem_cons_of_mem _ hp)
  · intro n d h p hp
    exact hinv.vband n d h p (by rw [hq]; exact List.mem_cons_of_mem _ hp)
  · intro n d h hdm
    rcases hinv.vexp n d h hdm with hmem | hexp
    · rw [hq] at hmem
      rcases List.mem_cons.mp hmem with heq' | hmem'
      · exfalso
        have : d = D := congrArg Prod.snd heq'
        omega
      · exact Or.inl hmem'
    · exact Or.inr hexp

theorem travLoopG_succ (direction startNodeId : String) (maxHops : Nat)
    (conn : Connections) (fuel : Nat) (st : TravState) (log : List String) :
    travLoopG direction startNodeId maxHops conn (fuel + 1) (st, log) =
      (match st.queue with
      | [] => some (st, log)
      | (currentId, distance) :: rest =>
          if maxHops ≤ distance then
            travLoopG direction startNodeId maxHops conn fuel
              ({ st with queue := rest }, log)
          else
            travLoopG direction startNodeId maxHops conn fuel
              ((neighborsOf direction conn currentId).foldl
                (processNeighborG direction startNodeId currentId distance)
                ({ st with queue := rest }, log))) := rfl

theorem travLoop_succ (direction startNodeId : String) (maxHops : Nat)
    (conn : Connections) (fuel : Nat) (st : TravState) :
    travLoop direction startNodeId maxHops conn (fuel + 1) st =
      (match st.queue with
      | [] => some st
      | (currentId, distance) :: rest =>
          if maxHops ≤ distance then
            travLoop direction startNodeId maxHops conn fuel
              { st with queue := rest }
          else
            travLoop direction startNodeId maxHops conn fuel
              ((neighborsOf direction conn currentId).foldl
                (processNeighbor direction startNodeId currentId distance)
                { st with queue := rest })) := rfl

theorem travLoopG_inv {direction startNodeId : String} {maxHops : Nat}
    {conn : Connections} {initEdges : List String} :
    ∀ (fuel : Nat) (st : TravState) (log : List String) (st' : TravState)
      (log' : List String),
    travLoopG direction startNodeId maxHops conn fuel (st, log) =
      some (st', log') →
    TravInv direction startNodeId maxHops conn initEdges st →
    LogInv direction conn st log →
    TravInv direction startNodeId maxHops conn initEdges st' ∧
    LogInv direction conn st' log' ∧ st'.queue = [] := by
  intro fuel
  induction fuel with
  | zero =>
      intro st log st' log' heq
      cases heq
  | succ fuel ih =>
      intro st log st' log' heq hinv hlog
      rw [travLoopG_succ] at heq
      cases hq : st.queue with
      | nil =>
          rw [hq] at heq
          cases heq
          exact ⟨hinv, hlog, hq⟩
      | cons p rest =>
          obtain ⟨u, D⟩ := p
          rw [hq] at heq
          dsimp only at heq
          by_cases hD : maxHops ≤ D
          · rw [if_pos hD] at heq
            exact ih _ _ _ _ heq (skip_inv hinv hq hD) hlog
          · rw [if_neg hD] at heq
            have hmid := pop_mid hinv hq
            have hfold := foldG_step (by omega) (neighborsOf direction conn u)
              { st with queue := rest } log hmid hlog (fun n hn => hn)
              ((neighborsOf direction conn u).foldl
                (processNeighborG direction startNodeId u D)
                ({ st with queue := rest }, log)).1
              ((neighborsOf direction conn u).foldl
                (processNeighborG direction startNodeId u D)
                ({ st with queue := rest }, log)).2 rfl
            obtain ⟨h1, h2, h3, _, _⟩ := hfold
            exact ih _ _ _ _ heq (mid_close h1 h3) h2

theorem travLoopG_term {direction startNodeId : String} {maxHops : Nat}
    {conn : Connections} {initEdges : List String} :
    ∀ (fuel : Nat) (st : TravState) (log : List String),
    TravInv direction startNodeId maxHops conn initEdges st →
    LogInv direction conn st log →
    st.queue.length + unvisCount direction conn st.visited < fuel →
    ∃ st' log',
      travLoopG direction startNodeId maxHops conn fuel (st, log) =
        some (st', log') := by
  intro fuel
  induction fuel with
  | zero =>
      intro st log hinv hlog hm
      omega
  | succ fuel ih =>
      intro st log hinv hlog hm
      rw [travLoopG_succ]
      cases hq : st.queue with
      | nil => exact ⟨st, log, rfl⟩
      | cons p rest =>
          obtain ⟨u, D⟩ := p
          have hlen : st.queue.length = rest.length + 1 := by rw [hq]; rfl
          dsimp only
          by_cases hD : maxHops ≤ D
          · rw [if_pos hD]
            exact ih _ _ (skip_inv hinv hq hD) hlog (by simp at hlen ⊢; omega)
          · rw [if_neg hD]
            have hmid := pop_mid hinv hq
            have hfold := foldG_step (by omega) (neighborsOf direction conn u)
              { st with queue := rest } log hmid hlog (fun n hn => hn)
              ((neighborsOf direction conn u).foldl
                (processNeighborG direction startNodeId u D)
                ({ st with queue := rest }, log)).1
              ((neighborsOf direction conn u).foldl
                (processNeighborG direction startNodeId u D)
                ({ st with queue := rest }, log)).2 rfl
            obtain ⟨h1, h2, h3, _, h5⟩ := hfold
            refine ih _ _ (mid_close h1 h3) h2 ?_
            have hq' : TravState.queue { st with queue := rest } = rest := rfl
            have hv' : TravState.visited { st with queue := rest } = st.visited := rfl
            rw [hq', hv'] at h5
            omega

theorem travLoopG_fst (direction startNodeId : String) (maxHops : Nat)
    (conn : Connections) :
    ∀ (fuel : Nat) (st : TravState) (log : List String),
    (travLoopG direction startNodeId maxHops conn fuel (st, log)).map Prod.fst =
      travLoop direction startNodeId maxHops conn fuel st := by
  intro fuel
  induction fuel with
  | zero => intro st log; rfl
  | succ fuel ih =>
      intro st log
      rw [travLoopG_succ, travLoop_succ]
      cases hq : st.queue with
      | nil => rfl
      | cons p rest =>
          obtain ⟨u, D⟩ := p
          dsimp only
          by_cases hD : maxHops ≤ D
          · rw [if_pos hD, if_pos hD]
            exact ih _ _
          · rw [if_neg hD, if_neg hD]
            have hfold : ∀ (N : List String) (s : TravState) (l : List String),
                (N.foldl (processNeighborG direction startNodeId u D) (s, l)).1 =
                  N.foldl (processNeighbor direction startNodeId u D) s := by
              intro N
              induction N with
              | nil => intro s l; rfl
              | cons n N ihN =>
                  intro s l
                  rw [List.foldl_cons, List.foldl_cons]
                  have := processNeighborG_fst direction startNodeId u D s l n
                  calc (N.foldl (processNeighborG direction startNodeId u D)
                        (processNeighborG direction startNodeId u D (s, l) n)).1
                      = (N.foldl (processNeighborG direction startNodeId u D)
                          ((processNeighborG direction startNodeId u D (s, l) n).1,
                            (processNeighborG direction startNodeId u D (s, l) n).2)).1 := rfl
                    _ = N.foldl (processNeighbor direction startNodeId u D)
                          (processNeighborG direction startNodeId u D (s, l) n).1 := ihN _ _
                    _ = N.foldl (processNeighbor direction startNodeId u D)
                          (processNeighbor direction startNodeId u D s n) := by rw [this]
            calc (travLoopG direction startNodeId maxHops conn fuel
                  ((neighborsOf direction conn u).foldl
                    (processNeighborG direction startNodeId u D)
                    ({ st with queue := rest }, log))).map Prod.fst
                = (travLoopG direction startNodeId maxHops conn fuel
                    (((neighborsOf direction conn u).foldl
                      (processNeighborG direction startNodeId u D)
                      ({ st with queue := rest }, log)).1,
                      ((neighborsOf direction conn u).foldl
                      (processNeighborG direction startNodeId u D)
                      ({ st with queue := rest }, log)).2)).map Prod.fst := rfl
              _ = travLoop direction startNodeId maxHops conn fuel
                    ((neighborsOf direction conn u).foldl
                      (processNeighborG direction startNodeId u D)
                      ({ st with queue := rest }, log)).1 := ih _ _
              _ = travLoop direction startNodeId maxHops conn fuel
                    ((neighborsOf direction conn u).foldl
                      (processNeighbor direction startNodeId u D)
                      { st with queue := rest }) := by rw [hfold]

theorem vlook_single {k n : String} {v d : Nat}
    (h : vlook [(k, v)] n = some d) : k = n ∧ d = v := by
  by_cases hk : k = n
  · simp [vlook, hk] at h
    exact ⟨hk, h.symm⟩
  · simp [vlook, hk] at h

theorem travInv_init (direction startNodeId : String) (maxHops : Nat)
    (conn : Connections) (ns es ds : List String) :
    TravInv direction startNodeId maxHops conn es
      ⟨[(startNodeId, 0)], [(startNodeId, 0)], ns, es, ds⟩ := by
  have hv : vlook [(startNodeId, (0 : Nat))] startNodeId = some 0 := by
    simp [vlook]
  refine ⟨List.pairwise_singleton _ _, ?_, ?_, ?_, ?_, ?_, hv, ?_⟩
  · intro p hp
    rcases List.mem_singleton.mp hp with rfl
    exact hv
  · intro n d h p hp
    obtain ⟨-, rfl⟩ := vlook_single h
    omega
  · intro n d h
    obtain ⟨-, rfl⟩ := vlook_single h
    omega
  · intro n d h
    obtain ⟨rfl, rfl⟩ := vlook_single h
    exact hasWalk_zero.mpr rfl
  · intro n d h _
    obtain ⟨rfl, rfl⟩ := vlook_single h
    exact Or.inl (List.mem_singleton.mpr rfl)
  · intro k hk
    exact Or.inl hk

theorem logInv_init (direction : String) (conn : Connections) (st : TravState) :
    LogInv direction conn st [] := by
  refine ⟨List.nodup_nil, ?_⟩
  intro n hn
  cases hn

theorem final_complete {direction startNodeId : String} {maxHops : Nat}
    {conn : Connections} {initEdges : List String} {st : TravState}
    (hinv : TravInv direction startNodeId maxHops conn initEdges st)
    (hq : st.queue = []) :
    ∀ (k : Nat) (n : String), hasWalk direction conn startNodeId k n →
      k ≤ maxHops → ∃ d, vlook st.visited n = some d ∧ d ≤ k := by
  intro k
  induction k with
  | zero =>
      intro n hw _
      rw [hasWalk_zero] at hw
      subst hw
      exact ⟨0, hinv.vstart, Nat.le_refl 0⟩
  | succ k ih =>
      intro n hw hk
      obtain ⟨u, hu, hn⟩ := hasWalk_succ.mp hw
      obtain ⟨d, hd, hdk⟩ := ih u hu (by omega)
      have hdm : d < maxHops := by omega
      rcases hinv.vexp u d hd hdm with hmem | hexp
      · rw [hq] at hmem
        cases hmem
      · obtain ⟨e, he, hle⟩ := hexp n hn
        exact ⟨e, he, by omega⟩

theorem final_minimal {direction startNodeId : String} {maxHops : Nat}
    {conn : Connections} {initEdges : List String} {st : TravState}
    (hinv : TravInv direction startNodeId maxHops conn initEdges st)
    (hq : st.queue = []) {n : String} {d : Nat}
    (hvd : vlook st.visited n = some d) :
    ∀ k, hasWalk direction conn startNodeId k n → d ≤ k := by
  intro k hw
  by_cases hk : k ≤ maxHops
  · obtain ⟨d', hd', hle⟩ := final_complete hinv hq k n hw hk
    rw [hvd] at hd'
    have := Option.some.inj hd'
    omega
  · have := hinv.vmax n d hvd
    omega

theorem traverseConnections_inv {direction startNodeId : String}
    {maxHops : Nat} {conn : Connections} {ns es ds : List String} {fuel : Nat}
    {st : TravState}
    (h : traverseConnections direction startNodeId maxHops conn ns es ds fuel =
      some st) :
    TravInv direction startNodeId maxHops conn es st ∧ st.queue = [] := by
  unfold traverseConnections at h
  have hfst := travLoopG_fst direction startNodeId maxHops conn fuel
    ⟨[(startNodeId, 0)], [(startNodeId, 0)], ns, es, ds⟩ []
  rw [h] at hfst
  cases hg : travLoopG direction startNodeId maxHops conn fuel
      (⟨[(startNodeId, 0)], [(startNodeId, 0)], ns, es, ds⟩, []) with
  | none =>
      rw [hg] at hfst
      cases hfst
  | some pr =>
      rw [hg] at hfst
      have hpr : pr.1 = st := Option.some.inj hfst
      have := travLoopG_inv fuel _ _ pr.1 pr.2 hg
        (travInv_init direction startNodeId maxHops conn ns es ds)
        (logInv_init direction conn _)
      rw [hpr] at this
      exact ⟨this.1, this.2.2⟩

theorem unvisCount_le (direction : String) (conn : Connections) (v : VMap) :
    unvisCount direction conn v ≤ ((allNbrs direction conn).dedup).length := by
  unfold unvisCount
  exact List.length_filter_le _ _

theorem traverseConnectionsG_term (direction startNodeId : String)
    (maxHops : Nat) (conn : Connections) (ns es ds : List String) :
    ∃ st log,
      traverseConnectionsG direction startNodeId maxHops conn ns es ds
        (2 + ((allNbrs direction conn).dedup).length) = some (st, log) ∧
      TravInv direction startNodeId maxHops conn es st ∧
      LogInv direction conn st log ∧ st.queue = [] := by
  have hinv := travInv_init direction startNodeId maxHops conn ns es ds
  have hlog := logInv_init direction conn
    (⟨[(startNodeId, 0)], [(startNodeId, 0)], ns, es, ds⟩ : TravState)
  have hb := unvisCount_le direction conn [(startNodeId, 0)]
  obtain ⟨st, log, heq⟩ := travLoopG_term
    (2 + ((allNbrs direction conn).dedup).length) _ [] hinv hlog
    (by simp only [List.length_singleton]; omega)
  have hrest := travLoopG_inv _ _ _ _ _ heq hinv hlog
  exact ⟨st, log, heq, hrest.1, hrest.2.1, hrest.2.2⟩

theorem traverseConnectionsG_fst (direction startNodeId : String)
    (maxHops : Nat) (conn : Connections) (ns es ds : List String) (fuel : Nat)
    {st : TravState} {log : List String}
    (h : traverseConnectionsG direction startNodeId maxHops conn ns es ds fuel =
      some (st, log)) :
    traverseConnections direction startNodeId maxHops conn ns es ds fuel =
      some st := by
  unfold traverseConnectionsG at h
  unfold traverseConnections
  have hfst := travLoopG_fst direction startNodeId maxHops conn fuel
    ⟨[(startNodeId, 0)], [(startNodeId, 0)], ns, es, ds⟩ []
  rw [h] at hfst
  exact hfst.symm

theorem findDownstreamNodes_bound :
    ∀ (fuel : Nat) (serviceId : String) (rs : List String) (hm : VMap)
      (maxHops : Nat) (edges : List Edge),
    (∀ n d, vlook hm n = some d → d ≤ maxHops) →
    ∀ n d,
      vlook (findDownstreamNodes fuel serviceId rs hm maxHops edges).2 n =
        some d → d ≤ maxHops := by
  intro fuel
  induction fuel with
  | zero =>
      intro s rs hm mh es hP n d h
      exact hP n d h
  | succ fuel ih =>
      intro s rs hm mh es hP
      by_cases hcur : mh ≤ (vlook hm s).getD 0
      · simp only [findDownstreamNodes, if_pos hcur]
        exact hP
      · simp only [findDownstreamNodes, if_neg hcur]
        have hcm : (vlook hm s).getD 0 < mh := by omega
        generalize hc : (vlook hm s).getD 0 = c at hcm ⊢
        generalize (es.filter fun e => decide (e.source = s)) = L
        clear hcur hc
        induction L generalizing rs hm with
        | nil => exact hP
        | cons e L ihL =>
            rw [List.foldl_cons]
            cases hvt : vlook hm e.target with
            | none =>
                simp only [hvt, cond_true]
                by_cases hstep : c + 1 < mh
                · rw [if_pos hstep]
                  have hm' : ∀ n d,
                      vlook (mset hm e.target (c + 1)) n = some d → d ≤ mh := by
                    intro n d h
                    rcases vlook_mset_cases h with ⟨rfl, rfl⟩ | ⟨-, h'⟩
                    · omega
                    · exact hP n d h'
                  have hrec := ih e.target (addSet rs e.target)
                    (mset hm e.target (c + 1)) mh es hm'
                  exact ihL _ _ hrec
                · rw [if_neg hstep]
                  have hm' : ∀ n d,
                      vlook (mset hm e.target (c + 1)) n = some d → d ≤ mh := by
                    intro n d h
                    rcases vlook_mset_cases h with ⟨rfl, rfl⟩ | ⟨-, h'⟩
                    · omega
                    · exact hP n d h'
                  exact ihL _ _ hm'
            | some dv =>
                simp only [hvt]
                by_cases hlt : c + 1 < dv
                · simp only [hlt, decide_eq_true_eq, if_true, cond_true, decide_True]
                  by_cases hstep : c + 1 < mh
                  · rw [if_pos hstep]
                    have hm' : ∀ n d,
                        vlook (mset hm e.target (c + 1)) n = some d → d ≤ mh := by
                      intro n d h
                      rcases vlook_mset_cases h with ⟨rfl, rfl⟩ | ⟨-, h'⟩
                      · omega
                      · exact hP n d h'
                    have hrec := ih e.target (addSet rs e.target)
                      (mset hm e.target (c + 1)) mh es hm'
                    exact ihL _ _ hrec
                  · rw [if_neg hstep]
                    have hm' : ∀ n d,
                        vlook (mset hm e.target (c + 1)) n = some d → d ≤ mh := by
                      intro n d h
                      rcases vlook_mset_cases h with ⟨rfl, rfl⟩ | ⟨-, h'⟩
                      · omega
                      · exact hP n d h'
                    exact ihL _ _ hm'
                · simp only [hlt, decide_False, cond_false]
                  exact ihL _ _ hP

theorem mem_nodeHL_applyClasses {dom : Dom} {sel : Selection}
    {sets : List String × List String × List String} {prev : ViewState}
    {x : String} :
    x ∈ (applyClasses dom sel sets prev).nodeHL ↔
      x ∈ prev.nodeHL ∨ (x ∈ dom.nodeIds ∧ x ∈ sets.1) := by
  simp only [applyClasses, List.mem_append, List.mem_filter, Bool.and_eq_true,
    decide_eq_true_eq, Bool.not_eq_true', decide_eq_false_iff_not]
  tauto

theorem mem_edgeHL_applyClasses {dom : Dom} {sel : Selection}
    {sets : List String × List String × List String} {prev : ViewState}
    {p : String × String} :
    p ∈ (applyClasses dom sel sets prev).edgeHL ↔
      p ∈ prev.edgeHL ∨ (p ∈ dom.edgePairs ∧ pairKey p ∈ sets.2.1) := by
  simp only [applyClasses, List.mem_append, List.mem_filter, Bool.and_eq_true,
    decide_eq_true_eq, Bool.not_eq_true', decide_eq_false_iff_not]
  tauto

theorem mem_nodeFaded_applyClasses {dom : Dom} {sel : Selection}
    {sets : List String × List String × List String} {prev : ViewState}
    {x : String} :
    x ∈ (applyClasses dom sel sets prev).nodeFaded ↔
      (x ∈ prev.nodeFaded ∧ x ∉ dom.nodeIds) ∨
      (x ∈ dom.nodeIds ∧ x ∉ sets.1 ∧ x ∉ prev.nodeHL) := by
  simp only [applyClasses, List.mem_append, List.mem_filter, Bool.and_eq_true,
    decide_eq_true_eq, Bool.not_eq_true', decide_eq_false_iff_not]

theorem mem_edgeFaded_applyClasses {dom : Dom} {sel : Selection}
    {sets : List String × List String × List String} {prev : ViewState}
    {p : String × String} :
    p ∈ (applyClasses dom sel sets prev).edgeFaded ↔
      (p ∈ prev.edgeFaded ∧ (p ∉ dom.edgePairs ∨
        (pairKey p ∉ sets.2.1 ∧ p ∈ prev.edgeHL))) ∨
      (p ∈ dom.edgePairs ∧ pairKey p ∉ sets.2.1 ∧ p ∉ prev.edgeHL) := by
  simp only [applyClasses, List.mem_append, List.mem_filter, Bool.or_eq_true,
    Bool.and_eq_true, decide_eq_true_eq, Bool.not_eq_true',
    decide_eq_false_iff_not]

theorem mem_nodeHL_applyLegend {dom : Dom} {st : ViewState} {x : String} :
    x ∈ (applyLegend dom st).nodeHL ↔
      x ∈ st.nodeHL ∨ x ∈ dom.legendNodeIds := by
  simp only [applyLegend, List.mem_append, List.mem_filter,
    Bool.not_eq_true', decide_eq_false_iff_not]
  tauto

theorem mem_edgeHL_applyLegend {dom : Dom} {st : ViewState}
    {p : String × String} :
    p ∈ (applyLegend dom st).edgeHL ↔
      p ∈ st.edgeHL ∨ p ∈ dom.legendEdgePairs := by
  simp only [applyLegend, List.mem_append, List.mem_filter,
    Bool.not_eq_true', decide_eq_false_iff_not]
  tauto

theorem viewUpdate_char {dom : Dom} {pE : List Edge} {sel : Selection}
    {fuel : Nat} {prev st : ViewState}
    (h : viewUpdate dom pE sel fuel prev = some st) :
    ∃ r, viewUpdate dom pE sel fuel resetState = some r ∧
      (∀ x, x ∈ st.nodeHL ↔ x ∈ prev.nodeHL ∨ x ∈ r.nodeHL) ∧
      (∀ p, p ∈ st.edgeHL ↔ p ∈ prev.edgeHL ∨ p ∈ r.edgeHL) := by
  unfold viewUpdate at h ⊢
  by_cases hskip : sel.nodeId = "" ∨ sel.viewMode = "all"
  · rw [if_pos hskip] at h ⊢
    cases h
    refine ⟨resetState, rfl, ?_, ?_⟩
    · intro x
      simp [resetState]
    · intro p
      simp [resetState]
  · rw [if_neg hskip] at h ⊢
    cases hchs : computeHighlightSets dom pE sel fuel with
    | none =>
        rw [hchs] at h
        simp at h
    | some sets =>
        rw [hchs] at h
        simp only [Option.map_some', Option.some.injEq] at h
        subst h
        refine ⟨applyClasses dom sel sets resetState, rfl, ?_, ?_⟩
        · intro x
          rw [mem_nodeHL_applyClasses, mem_nodeHL_applyClasses]
          simp only [resetState, List.not_mem_nil, false_or]
        · intro p
          rw [mem_edgeHL_applyClasses, mem_edgeHL_applyClasses]
          simp only [resetState, List.not_mem_nil, false_or]

theorem travLoop_start_no_neighbors {direction startNodeId : String}
    {maxHops : Nat} {conn : Connections} {v : VMap} {ns es ds : List String}
    (h1 : neighborsOf direction conn startNodeId = []) (fuel : Nat) :
    travLoop direction startNodeId maxHops conn (fuel + 2)
      ⟨[(startNodeId, 0)], v, ns, es, ds⟩ = some ⟨[], v, ns, es, ds⟩ := by
  rw [travLoop_succ]
  dsimp only
  by_cases hD : maxHops ≤ 0
  · rw [if_pos hD]
    rw [travLoop_succ]
  · rw [if_neg hD, h1]
    rw [List.foldl_nil]
    rw [travLoop_succ]

theorem traverseConnections_no_neighbors {direction startNodeId : String}
    {maxHops : Nat} {conn : Connections} {ns es ds : List String} {fuel : Nat}
    (h1 : neighborsOf direction conn startNodeId = []) (hfuel : 2 ≤ fuel) :
    traverseConnections direction startNodeId maxHops conn ns es ds fuel =
      some ⟨[], [(startNodeId, 0)], ns, es, ds⟩ := by
  obtain ⟨f, rfl⟩ : ∃ f, fuel = f + 2 := ⟨fuel - 2, by omega⟩
  exact travLoop_start_no_neighbors h1 f

theorem computeHighlightSets_unknown {dom : Dom} {pE : List Edge}
    {sel : Selection} {fuel : Nat}
    (hout : getL (getGraphConnections dom.nodeIds pE
      (dom.edgePairs.map (fun p => ⟨p.1, p.2⟩))).outgoing sel.nodeId = [])
    (hinc : getL (getGraphConnections dom.nodeIds pE
      (dom.edgePairs.map (fun p => ⟨p.1, p.2⟩))).incoming sel.nodeId = [])
    (hfuel : 2 ≤ fuel) :
    computeHighlightSets dom pE sel fuel = some ([sel.nodeId], [], []) := by
  have hnd : neighborsOf "downstream"
      (getGraphConnections dom.nodeIds pE
        (dom.edgePairs.map (fun p => ⟨p.1, p.2⟩))) sel.nodeId = [] := by
    unfold neighborsOf
    rw [if_pos rfl]
    exact hout
  have hnu : neighborsOf "upstream"
      (getGraphConnections dom.nodeIds pE
        (dom.edgePairs.map (fun p => ⟨p.1, p.2⟩))) sel.nodeId = [] := by
    unfold neighborsOf
    rw [if_neg (by decide : ¬ ("upstream" = "downstream"))]
    exact hinc
  unfold computeHighlightSets
  by_cases hsingle : sel.viewMode = "single"
  · rw [if_pos hsingle]
    rw [hout, hinc]
    rfl
  · rw [if_neg hsingle]
    cases hb1 : (decide (sel.viewMode = "downstream") ||
        decide (sel.viewMode = "bidirectional")) <;>
      cases hb2 : (decide (sel.viewMode = "upstream") ||
          decide (sel.viewMode = "bidirectional")) <;>
        simp only [runDir, hb1, hb2, cond_true, cond_false,
          traverseConnections_no_neighbors hnd hfuel,
          traverseConnections_no_neighbors hnu hfuel, Option.map_some',
          Option.some_bind]

theorem applySelectionsFn_one (dom : Dom) (pE : List Edge) (A : Selection)
    (fuel : Nat) :
    applySelectionsFn dom pE [A] fuel =
      (viewUpdate dom pE A fuel resetState).map (applyLegend dom) := by
  cases h : viewUpdate dom pE A fuel resetState <;>
    simp [applySelectionsFn, List.foldlM, h]

theorem applySelectionsFn_two (dom : Dom) (pE : List Edge) (A B : Selection)
    (fuel : Nat) :
    applySelectionsFn dom pE [A, B] fuel =
      ((viewUpdate dom pE A fuel resetState).bind
        (viewUpdate dom pE B fuel)).map (applyLegend dom) := by
  cases h : viewUpdate dom pE A fuel resetState with
  | none => simp [applySelectionsFn, List.foldlM, h]
  | some s =>
      cases h2 : viewUpdate dom pE B fuel s <;>
        simp [applySelectionsFn, List.foldlM, h, h2]

/-- C1: for every graph (adjacency built from the edge list) and every start
node, the hop-distance map produced by a traversal run that completes records,
for each reached node, the minimum number of directed hops from the start
node: the recorded distance is realized by a walk of exactly that many hops,
and no walk to that node is shorter. -/
theorem C1_traversal_records_minimum_hops (direction startNodeId : String)
    (maxHops : Nat) (conn : Connections) (ns es ds : List String) (fuel : Nat)
    (st : TravState)
    (h : traverseConnections direction startNodeId maxHops conn ns es ds fuel =
      some st)
    (n : String) (d : Nat) (hv : vlook st.visited n = some d) :
    hasWalk direction conn startNodeId d n ∧
    ∀ k, hasWalk direction conn startNodeId k n → d ≤ k := by
  obtain ⟨hinv, hq⟩ := traverseConnections_inv h
  exact ⟨hinv.vwalk n d hv, final_minimal hinv hq hv⟩

/-- C1 witness: with edges A→B, B→C and the added direct edge A→C, a
downstream run from A with maxHops = 3 records hop(C) = 1 (not 2), and 1 is
minimal among all walk lengths reaching C. -/
theorem C1_traversal_records_minimum_hops_witness :
    traverseConnections "downstream" "A" 3
        (getGraphConnections ["A", "B", "C"]
          [⟨"A", "B"⟩, ⟨"B", "C"⟩, ⟨"A", "C"⟩] []) ["A"] [] [] 10 =
      some ⟨[], [("C", 1), ("B", 1), ("A", 0)], ["A", "B", "C"],
        ["A->B", "A->C", "B->C"], ["A->B", "A->C"]⟩ ∧
    vlook [("C", 1), ("B", 1), ("A", 0)] "C" = some 1 ∧
    (hasWalk "downstream"
        (getGraphConnections ["A", "B", "C"]
          [⟨"A", "B"⟩, ⟨"B", "C"⟩, ⟨"A", "C"⟩] []) "A" 1 "C" ∧
      ∀ k, hasWalk "downstream"
        (getGraphConnections ["A", "B", "C"]
          [⟨"A", "B"⟩, ⟨"B", "C"⟩, ⟨"A", "C"⟩] []) "A" k "C" → 1 ≤ k) := by
  refine ⟨rfl, rfl, ?_⟩
  exact C1_traversal_records_minimum_hops "downstream" "A" 3
    (getGraphConnections ["A", "B", "C"]
      [⟨"A", "B"⟩, ⟨"B", "C"⟩, ⟨"A", "C"⟩] []) ["A"] [] [] 10 _ rfl "C" 1 rfl

/-- C2: the claim states that in downstream mode an edge between two
highlighted nodes whose source hop-distance is not smaller than its target
hop-distance (and whose source is not the start node) is never highlighted.
The code violates this: with edges A→X and X→A, downstream from A with
maxHops 3, the hop map is X:1, A:0, yet the reverse edge X→A (source hop 1 ≥
target hop 0, source ≠ start) is highlighted, because
`downstreamHops.get("A") || Infinity` turns the start node's falsy hop value 0
into Infinity. -/
theorem C2_reverse_edge_into_start_is_highlighted :
    findDownstreamNodes 10 "A" [] [("A", 0)] 3 [⟨"A", "X"⟩, ⟨"X", "A"⟩] =
      (["X"], [("X", 1), ("A", 0)]) ∧
    vlook [("X", 1), ("A", 0)] "X" = some 1 ∧
    vlook [("X", 1), ("A", 0)] "A" = some 0 ∧
    ¬ ((1 : Nat) < 0) ∧ "X" ≠ "A" ∧
    edgeHighlightDownstream "A" ["X"] [("X", 1), ("A", 0)] "X" "A" = true := by
  refine ⟨rfl, rfl, rfl, by omega, by decide, rfl⟩

/-- C3: no traversal, in either direction, ever records a reached node at a
hop distance exceeding the run's hop bound — both for the BFS engine
`traverseConnections` and for the recursive `Parser.findDownstreamNodes`
seeded with the start node at distance 0. -/
theorem C3_traversal_respects_hop_bound :
    (∀ (direction startNodeId : String) (maxHops : Nat) (conn : Connections)
      (ns es ds : List String) (fuel : Nat) (st : TravState),
      traverseConnections direction startNodeId maxHops conn ns es ds fuel =
        some st →
      ∀ n d, vlook st.visited n = some d → d ≤ maxHops) ∧
    (∀ (fuel : Nat) (serviceId : String) (rs : List String) (maxHops : Nat)
      (edges : List Edge) (n : String) (d : Nat),
      vlook (findDownstreamNodes fuel serviceId rs [(serviceId, 0)] maxHops
        edges).2 n = some d → d ≤ maxHops) := by
  constructor
  · intro direction s mh conn ns es ds fuel st h n d hv
    exact (traverseConnections_inv h).1.vmax n d hv
  · intro fuel s rs mh es n d h
    refine findDownstreamNodes_bound fuel s rs [(s, 0)] mh es ?_ n d h
    intro n' d' h'
    obtain ⟨-, rfl⟩ := vlook_single h'
    omega

/-- C3 witness: with edges A→B, B→C, C→D, A→E, E→F, a downstream run from A
with maxHops = 2 reaches exactly B, E, C, F (plus the seeded start A) with
hops B:1, E:1, C:2, F:2; D is not recorded; and the hop bound 2 is respected
at C as the claim theorem states. -/
theorem C3_traversal_respects_hop_bound_witness :
    traverseConnections "downstream" "A" 2
        (getGraphConnections ["A", "B", "C", "D", "E", "F"]
          [⟨"A", "B"⟩, ⟨"B", "C"⟩, ⟨"C", "D"⟩, ⟨"A", "E"⟩, ⟨"E", "F"⟩] [])
        ["A"] [] [] 20 =
      some ⟨[], [("F", 2), ("C", 2), ("E", 1), ("B", 1), ("A", 0)],
        ["A", "B", "E", "C", "F"], ["A->B", "A->E", "B->C", "E->F"],
        ["A->B", "A->E"]⟩ ∧
    vlook [("F", 2), ("C", 2), ("E", 1), ("B", 1), ("A", 0)] "D" = none ∧
    vlook [("F", 2), ("C", 2), ("E", 1), ("B", 1), ("A", 0)] "C" = some 2 ∧
    2 ≤ 2 := by
  refine ⟨rfl, rfl, rfl, ?_⟩
  exact C3_traversal_respects_hop_bound.1 "downstream" "A" 2
    (getGraphConnections ["A", "B", "C", "D", "E", "F"]
      [⟨"A", "B"⟩, ⟨"B", "C"⟩, ⟨"C", "D"⟩, ⟨"A", "E"⟩, ⟨"E", "F"⟩] [])
    ["A"] [] [] 20 _ rfl "C" 2 rfl

/-- C4: a plain (non-additive) activation replaces the whole selection list
with the singleton; an additive activation leaves the list unchanged when a
selection with the same nodeId is present and otherwise appends at the end. -/
theorem C4_selection_activation_semantics (cur : List Selection)
    (sel : Selection) :
    handleSelectionUpdate cur sel false = [sel] ∧
    (cur.any (fun s => decide (s.nodeId = sel.nodeId)) = true →
      handleSelectionUpdate cur sel true = cur) ∧
    (cur.any (fun s => decide (s.nodeId = sel.nodeId)) = false →
      handleSelectionUpdate cur sel true = cur ++ [sel]) := by
  refine ⟨rfl, ?_, ?_⟩
  · intro h
    simp [handleSelectionUpdate, h]
  · intro h
    simp [handleSelectionUpdate, h]

/-- C4 witness: concrete checks of all three activation behaviours on a
one-element selection list. -/
theorem C4_selection_activation_semantics_witness :
    handleSelectionUpdate [⟨"A", "downstream", some 5⟩]
        ⟨"B", "upstream", some 3⟩ false = [⟨"B", "upstream", some 3⟩] ∧
    handleSelectionUpdate [⟨"A", "downstream", some 5⟩]
        ⟨"A", "single", some 2⟩ true = [⟨"A", "downstream", some 5⟩] ∧
    handleSelectionUpdate [⟨"A", "downstream", some 5⟩]
        ⟨"B", "upstream", some 3⟩ true =
      [⟨"A", "downstream", some 5⟩, ⟨"B", "upstream", some 3⟩] := by
  refine ⟨(C4_selection_activation_semantics [⟨"A", "downstream", some 5⟩]
      ⟨"B", "upstream", some 3⟩).1,
    (C4_selection_activation_semantics [⟨"A", "downstream", some 5⟩]
      ⟨"A", "single", some 2⟩).2.1 (by decide),
    (C4_selection_activation_semantics [⟨"A", "downstream", some 5⟩]
      ⟨"B", "upstream", some 3⟩).2.2 (by decide)⟩

/-- C5: activating node A (plain) and then node B (additive) yields highlighted
node and edge sets that are supersets of the union of the sets highlighted by
activating A alone and by activating B alone — a node or edge highlighted by
any active selection stays highlighted. -/
theorem C5_multiselect_additive_superset (dom : Dom) (pE : List Edge)
    (A B : Selection) (fuel : Nat) (stAB stA stB : ViewState)
    (hne : A.nodeId ≠ B.nodeId)
    (hAB : applySelectionsFn dom pE
      (handleSelectionUpdate (handleSelectionUpdate [] A false) B true) fuel =
      some stAB)
    (hA : applySelectionsFn dom pE (handleSelectionUpdate [] A false) fuel =
      some stA)
    (hB : applySelectionsFn dom pE (handleSelectionUpdate [] B false) fuel =
      some stB) :
    (∀ x, x ∈ stA.nodeHL ∨ x ∈ stB.nodeHL → x ∈ stAB.nodeHL) ∧
    (∀ p, p ∈ stA.edgeHL ∨ p ∈ stB.edgeHL → p ∈ stAB.edgeHL) := by
  have h1 : handleSelectionUpdate [] A false = [A] := rfl
  have h2 : handleSelectionUpdate [A] B true = [A, B] := by
    simp [handleSelectionUpdate, hne]
  have h3 : handleSelectionUpdate [] B false = [B] := rfl
  rw [h1, h2] at hAB
  rw [h1] at hA
  rw [h3] at hB
  rw [applySelectionsFn_two] at hAB
  rw [applySelectionsFn_one] at hA hB
  cases hvA : viewUpdate dom pE A fuel resetState with
  | none =>
      rw [hvA] at hA
      simp at hA
  | some sA =>
      rw [hvA] at hA hAB
      simp only [Option.map_some', Option.some.injEq, Option.some_bind]
        at hA hAB
      cases hvB : viewUpdate dom pE B fuel sA with
      | none =>
          rw [hvB] at hAB
          simp at hAB
      | some sAB =>
          rw [hvB] at hAB
          simp only [Option.map_some', Option.some.injEq] at hAB
          obtain ⟨rB, hrB, hnodes, hedges⟩ := viewUpdate_char hvB
          rw [hrB] at hB
          simp only [Option.map_some', Option.some.injEq] at hB
          subst hA
          subst hB
          subst hAB
          constructor
          · intro x hx
            rw [mem_nodeHL_applyLegend]
            rcases hx with hx | hx
            · rw [mem_nodeHL_applyLegend] at hx
              rcases hx with hx | hx
              · exact Or.inl ((hnodes x).mpr (Or.inl hx))
              · exact Or.inr hx
            · rw [mem_nodeHL_applyLegend] at hx
              rcases hx with hx | hx
              · exact Or.inl ((hnodes x).mpr (Or.inr hx))
              · exact Or.inr hx
          · intro p hp
            rw [mem_edgeHL_applyLegend]
            rcases hp with hp | hp
            · rw [mem_edgeHL_applyLegend] at hp
              rcases hp with hp | hp
              · exact Or.inl ((hedges p).mpr (Or.inl hp))
              · exact Or.inr hp
            · rw [mem_edgeHL_applyLegend] at hp
              rcases hp with hp | hp
              · exact Or.inl ((hedges p).mpr (Or.inr hp))
              · exact Or.inr hp

/-- C5 witness: on the graph with the single edge A→B, activating A
(downstream) and then additively B (upstream) keeps every node and edge
highlighted that either activation alone highlights. -/
theorem C5_multiselect_additive_superset_witness :
    applySelectionsFn (⟨["A", "B"], [("A", "B")], [], []⟩ : Dom) [⟨"A", "B"⟩]
        (handleSelectionUpdate
          (handleSelectionUpdate [] ⟨"A", "downstream", some 3⟩ false)
          ⟨"B", "upstream", some 3⟩ true) 10 =
      some ⟨["A", "B"], [], ["A", "B"], [("A", "B")], [], [("A", "B")]⟩ ∧
    "B" ∈ (⟨["A", "B"], [], ["A"], [("A", "B")], [], [("A", "B")]⟩ :
      ViewState).nodeHL ∧
    "B" ∈ (⟨["A", "B"], [], ["A", "B"], [("A", "B")], [], [("A", "B")]⟩ :
      ViewState).nodeHL ∧
    ("A", "B") ∈ (⟨["A", "B"], [], ["A", "B"], [("A", "B")], [], [("A", "B")]⟩ :
      ViewState).edgeHL := by
  refine ⟨rfl, by decide, ?_, ?_⟩
  · exact (C5_multiselect_additive_superset
      (⟨["A", "B"], [("A", "B")], [], []⟩ : Dom) [⟨"A", "B"⟩]
      ⟨"A", "downstream", some 3⟩ ⟨"B", "upstream", some 3⟩ 10
      ⟨["A", "B"], [], ["A", "B"], [("A", "B")], [], [("A", "B")]⟩
      ⟨["A", "B"], [], ["A"], [("A", "B")], [], [("A", "B")]⟩
      ⟨["A", "B"], [], ["B"], [("A", "B")], [], [("A", "B")]⟩
      (by decide) rfl rfl rfl).1 "B" (Or.inl (by decide))
  · exact (C5_multiselect_additive_superset
      (⟨["A", "B"], [("A", "B")], [], []⟩ : Dom) [⟨"A", "B"⟩]
      ⟨"A", "downstream", some 3⟩ ⟨"B", "upstream", some 3⟩ 10
      ⟨["A", "B"], [], ["A", "B"], [("A", "B")], [], [("A", "B")]⟩
      ⟨["A", "B"], [], ["A"], [("A", "B")], [], [("A", "B")]⟩
      ⟨["A", "B"], [], ["B"], [("A", "B")], [], [("A", "B")]⟩
      (by decide) rfl rfl rfl).2 ("A", "B") (Or.inl (by decide))

/-- C6: every edge key recorded by a traversal over an adjacency index built
by `getGraphConnections` is either an initially present key or renders an
actual adjacency pair in source→target order, and the key construction for a
downstream crossing of an edge coincides with the key construction for an
upstream crossing of the same edge. -/
theorem C6_edge_keys_in_source_target_order (nodeIds : List String)
    (pE dE : List Edge) (direction startNodeId : String) (maxHops : Nat)
    (ns es ds : List String) (fuel : Nat) (st : TravState)
    (h : traverseConnections direction startNodeId maxHops
      (getGraphConnections nodeIds pE dE) ns es ds fuel = some st) :
    (∀ k ∈ st.edges, k ∈ es ∨ ∃ s t,
      k = s ++ "->" ++ t ∧
      t ∈ getL (getGraphConnections nodeIds pE dE).outgoing s ∧
      s ∈ getL (getGraphConnections nodeIds pE dE).incoming t) ∧
    (∀ s t : String, edgeKeyFor "downstream" s t = edgeKeyFor "upstream" t s) := by
  constructor
  · intro k hk
    obtain ⟨hinv, -⟩ := traverseConnections_inv h
    rcases hinv.ekeys k hk with hk' | ⟨s, t, hkey, hst⟩
    · exact Or.inl hk'
    · refine Or.inr ⟨s, t, hkey, ?_⟩
      have hc := consistent_getGraphConnections nodeIds pE dE s t
      rcases hst with hst | hst
      · exact ⟨hst, hc.mp hst⟩
      · exact ⟨hc.mpr hst, hst⟩
  · intro s t
    rfl

/-- C6 witness: a downstream run from A and an upstream run from B on the
single edge A→B both record the identical key "A->B", which names the edge in
actual source→target order. -/
theorem C6_edge_keys_in_source_target_order_witness :
    traverseConnections "upstream" "B" 3
        (getGraphConnections ["A", "B"] [⟨"A", "B"⟩] []) ["B"] [] [] 10 =
      some ⟨[], [("A", 1), ("B", 0)], ["B", "A"], ["A->B"], ["A->B"]⟩ ∧
    ("A->B" ∈ (["A->B"] : List String) ∧
      ("A->B" ∈ ([] : List String) ∨ ∃ s t, "A->B" = s ++ "->" ++ t ∧
        t ∈ getL (getGraphConnections ["A", "B"] [⟨"A", "B"⟩] []).outgoing s ∧
        s ∈ getL (getGraphConnections ["A", "B"] [⟨"A", "B"⟩] []).incoming t)) ∧
    edgeKeyFor "downstream" "A" "B" = edgeKeyFor "upstream" "B" "A" := by
  refine ⟨rfl, ⟨by decide, ?_⟩, ?_⟩
  · exact (C6_edge_keys_in_source_target_order ["A", "B"] [⟨"A", "B"⟩] []
      "upstream" "B" 3 ["B"] [] [] 10 _ rfl).1 "A->B" (by decide)
  · exact (C6_edge_keys_in_source_target_order ["A", "B"] [⟨"A", "B"⟩] []
      "upstream" "B" 3 ["B"] [] [] 10 _ rfl).2 "A" "B"

/-- C7: for every adjacency index, start node and hop bound, the BFS completes
within a fuel budget of two plus the number of distinct ids occurring in the
consulted adjacency lists (hence within O(nodes + edges) loop iterations); the
ghost push log shows that no node — the start node included — is ever enqueued
twice, and its length is bounded by the number of distinct adjacency ids. -/
theorem C7_bfs_terminates_each_node_enqueued_once
    (direction startNodeId : String) (maxHops : Nat) (conn : Connections)
    (ns es ds : List String) :
    ∃ st log,
      traverseConnectionsG direction startNodeId maxHops conn ns es ds
        (2 + ((allNbrs direction conn).dedup).length) = some (st, log) ∧
      traverseConnections direction startNodeId maxHops conn ns es ds
        (2 + ((allNbrs direction conn).dedup).length) = some st ∧
      (startNodeId :: log).Nodup ∧
      log.length ≤ ((allNbrs direction conn).dedup).length := by
  obtain ⟨st, log, heq, hinv, hlog, hqe⟩ :=
    traverseConnectionsG_term direction startNodeId maxHops conn ns es ds
  refine ⟨st, log, heq,
    traverseConnectionsG_fst direction startNodeId maxHops conn ns es ds _ heq,
    ?_, ?_⟩
  · rw [List.nodup_cons]
    refine ⟨?_, hlog.1⟩
    intro hmem
    obtain ⟨⟨d, hd, hd1⟩, -⟩ := hlog.2 startNodeId hmem
    rw [hinv.vstart] at hd
    have := Option.some.inj hd
    omega
  · have hsub : log ⊆ (allNbrs direction conn).dedup := by
      intro a ha
      exact List.mem_dedup.mpr (hlog.2 a ha).2
    exact (List.subperm_of_subset hlog.1 hsub).length_le

/-- C8: selecting a node id with no entry in the adjacency index yields the
highlight sets `([start], ∅, ∅)` without an error, and applying them to a
freshly reset view highlights exactly the start node (when rendered), fades
every other rendered node, highlights no edge, and fades every rendered
edge. -/
theorem C8_unknown_node_highlights_start_only (dom : Dom) (pE : List Edge)
    (sel : Selection) (fuel : Nat) (st : ViewState)
    (hid : sel.nodeId ≠ "") (hmode : sel.viewMode ≠ "all")
    (hout : getL (getGraphConnections dom.nodeIds pE
      (dom.edgePairs.map (fun p => ⟨p.1, p.2⟩))).outgoing sel.nodeId = [])
    (hinc : getL (getGraphConnections dom.nodeIds pE
      (dom.edgePairs.map (fun p => ⟨p.1, p.2⟩))).incoming sel.nodeId = [])
    (hfuel : 2 ≤ fuel)
    (h : viewUpdate dom pE sel fuel resetState = some st) :
    computeHighlightSets dom pE sel fuel = some ([sel.nodeId], [], []) ∧
    (∀ x, x ∈ st.nodeHL ↔ x ∈ dom.nodeIds ∧ x = sel.nodeId) ∧
    (∀ x ∈ dom.nodeIds, x ≠ sel.nodeId → x ∈ st.nodeFaded) ∧
    (∀ p, p ∉ st.edgeHL) ∧
    (∀ p ∈ dom.edgePairs, p ∈ st.edgeFaded) := by
  have hchs := computeHighlightSets_unknown hout hinc hfuel
  unfold viewUpdate at h
  rw [if_neg (by simp [hid, hmode])] at h
  rw [hchs] at h
  simp only [Option.map_some', Option.some.injEq] at h
  subst h
  refine ⟨hchs, ?_, ?_, ?_, ?_⟩
  · intro x
    rw [mem_nodeHL_applyClasses]
    simp [resetState]
  · intro x hx hxne
    rw [mem_nodeFaded_applyClasses]
    simp [resetState, hx, hxne]
  · intro p hp
    rw [mem_edgeHL_applyClasses] at hp
    simp [resetState] at hp
  · intro p hp
    rw [mem_edgeFaded_applyClasses]
    simp [resetState, hp, pairKey]

/-- C8 witness: with rendered nodes Z, A, B and the single edge A→B, selecting
the connection-less node Z downstream highlights only Z, fades A and B,
highlights no edge and fades the edge A→B. -/
theorem C8_unknown_node_highlights_start_only_witness :
    viewUpdate (⟨["Z", "A", "B"], [("A", "B")], [], []⟩ : Dom) [⟨"A", "B"⟩]
        ⟨"Z", "downstream", some 3⟩ 10 resetState =
      some ⟨["Z"], ["A", "B"], ["Z"], [], [("A", "B")], []⟩ ∧
    computeHighlightSets (⟨["Z", "A", "B"], [("A", "B")], [], []⟩ : Dom)
      [⟨"A", "B"⟩] ⟨"Z", "downstream", some 3⟩ 10 = some (["Z"], [], []) ∧
    ("Z" ∈ (["Z"] : List String) ↔ "Z" ∈ (["Z", "A", "B"] : List String) ∧
      "Z" = "Z") ∧
    "A" ∈ (["A", "B"] : List String) ∧
    (("A", "B") ∉ ([] : List (String × String))) ∧
    ("A", "B") ∈ ([("A", "B")] : List (String × String)) := by
  refine ⟨rfl, ?_, by decide, by decide, by decide, by decide⟩
  exact (C8_unknown_node_highlights_start_only
    (⟨["Z", "A", "B"], [("A", "B")], [], []⟩ : Dom) [⟨"A", "B"⟩]
    ⟨"Z", "downstream", some 3⟩ 10
    ⟨["Z"], ["A", "B"], ["Z"], [], [("A", "B")], []⟩
    (by decide) (by decide) rfl rfl (by omega) rfl).1

/-- C9: the hop-limit clamp of `updateView` maps undefined/NaN and
non-positive inputs to the safe default 5, keeps positive inputs, and always
produces a positive hop limit; the hop-limit determination of
`handleNodeClick` likewise always produces a positive value. -/
theorem C9_invalid_hop_limit_clamped :
    normalizeMaxHops none = 5 ∧
    (∀ z : Int, z ≤ 0 → normalizeMaxHops (some z) = 5) ∧
    (∀ z : Int, 0 < z → normalizeMaxHops (some z) = z) ∧
    (∀ o : Option Int, 1 ≤ normalizeMaxHops o) ∧
    (∀ (b : Bool) (sv : Option (Option Int)), 1 ≤ computeClickMaxHops b sv) := by
  refine ⟨rfl, ?_, ?_, ?_, ?_⟩
  · intro z hz
    simp [normalizeMaxHops, hz]
  · intro z hz
    rw [normalizeMaxHops, if_neg (by omega)]
  · intro o
    cases o with
    | none => simp [normalizeMaxHops]
    | some z =>
        rw [normalizeMaxHops]
        split <;> omega
  · intro b sv
    cases b with
    | true => simp [computeClickMaxHops]
    | false =>
        cases sv with
        | none => simp [computeClickMaxHops]
        | some s =>
            cases s with
            | none => simp [computeClickMaxHops]
            | some z =>
                simp only [computeClickMaxHops, Bool.false_eq_true, if_false]
                split <;> omega

/-- C9 witness: undefined, zero and negative hop limits clamp to 5; the value
3 passes through; the click-path fallback is positive for a NaN slider. -/
theorem C9_invalid_hop_limit_clamped_witness :
    normalizeMaxHops none = 5 ∧
    normalizeMaxHops (some 0) = 5 ∧
    normalizeMaxHops (some (-7)) = 5 ∧
    normalizeMaxHops (some 3) = 3 ∧
    1 ≤ computeClickMaxHops false (some none) := by
  refine ⟨C9_invalid_hop_limit_clamped.1,
    C9_invalid_hop_limit_clamped.2.1 0 (by omega),
    C9_invalid_hop_limit_clamped.2.1 (-7) (by omega),
    C9_invalid_hop_limit_clamped.2.2.1 3 (by omega),
    C9_invalid_hop_limit_clamped.2.2.2.2 false (some none)⟩

/-- C10: `parseDotSource` produces one node entry per occurrence of a quoted
identifier followed by a bracketed attribute block: the target of the edge
statement `"A" -> "B" [label="x"]` is returned as a node entry whose attrs
are the edge's attribute text, and repeated occurrences of the same quoted
identifier with attribute blocks yield duplicate node ids in the returned
array. -/
theorem C10_parser_node_entries_from_attr_blocks :
    parseDotSource "\"A\" -> \"B\" [label=\"x\"]" =
      ([⟨"B", "label=\"x\""⟩], [⟨"A", "B"⟩]) ∧
    parseDotSource "\"A\" [color=red] \"A\" [shape=box]" =
      ([⟨"A", "color=red"⟩, ⟨"A", "shape=box"⟩], []) := by
  exact ⟨rfl, rfl⟩

end GraphvizEditor
